import Mathlib

/-!
# UserActivityDataPipeline: producer and consumer

A shallow embedding of `producer/main.go` and `consumer/main.go`.

* Go `string` values are byte sequences (`GoString`), not necessarily valid
  UTF-8.
* `int64` values are integers, wrapped by `wrap64` where Go arithmetic can
  overflow.
* The broker, the sink, the clock and the randomness source are external:
  their answers are inputs of the model, and what the program does to them
  is recorded in a trace.
-/

namespace Pipeline

/-! ## Data model -/

/-- A Go `byte`. -/
abbrev Byte := Fin 256

/-- A Go `string`: a sequence of bytes. -/
abbrev GoString := List Byte

/-- The conversion `byte(n)`: the low 8 bits of `n`. -/
def byte (n : Nat) : Byte := ⟨n % 256, Nat.mod_lt n (by decide)⟩

/-- The bytes of an ASCII string literal of the source. -/
def ascii (s : String) : GoString := s.toList.map (fun c => byte c.toNat)

/-- The type `Event` (same declaration in `producer/main.go` and
`consumer/main.go`). `Timestamp` is an `int64`. -/
structure Event where
  UserID : GoString
  EventType : GoString
  Timestamp : Int
  URL : GoString
  deriving DecidableEq

/-- The zero value of `Event` (`var event Event`). -/
def Event.zero : Event := { UserID := [], EventType := [], Timestamp := 0, URL := [] }

/-- The range of `int64`. -/
def isInt64 (x : Int) : Prop := -9223372036854775808 ≤ x ∧ x ≤ 9223372036854775807

instance (x : Int) : Decidable (isInt64 x) := by unfold isInt64; infer_instance

/-- Wrap-around of `int64` arithmetic: the value in the `int64` range
congruent to `x` modulo `2^64`. -/
def wrap64 (x : Int) : Int := (x + 9223372036854775808) % 18446744073709551616 - 9223372036854775808

/-! ## Topic bootstrap (`producer/main.go`, `createTopicIfNotExists`) -/

/-- A non-nil error returned by `conn.CreateTopics`, as classified by the two
`errors.Is` tests of the creation loop. -/
inductive KafkaErr where
  | topicAlreadyExists
  | invalidReplicationFactor
  | other (code : Nat)
  deriving DecidableEq

/-- Result of one `kafka.Dial` call: a connection, or a nil connection and an
error. -/
inductive DialResult where
  | connected
  | failed (err : Nat)
  deriving DecidableEq

/-- The broker as seen by the bootstrapper: the outcome of the `i`-th `Dial`
call and of the `i`-th `CreateTopics` call (both counted from 0). -/
structure Broker where
  dial : Nat → DialResult
  createTopics : Nat → Option KafkaErr

/-- What the bootstrapper does to the outside world. -/
inductive Action where
  | dial
  | createTopics
  | sleep (ms : Nat)
  | close
  deriving DecidableEq

/-- The non-nil errors `createTopicIfNotExists` returns (the three
`fmt.Errorf` sites). -/
inductive BootErr where
  | connectFailed (attempts : Nat) (last : Option Nat)
  | nonRetryable (err : KafkaErr)
  | createExhausted (attempts : Nat) (last : Option KafkaErr)
  deriving DecidableEq

/-- Value of `retriesNumber := 5`. -/
def retriesNumber : Nat := 5

/-- Value of `retryInterval := 3 * time.Second`, in milliseconds. -/
def retryInterval : Nat := 3000

/-- The connection loop `for i := range retriesNumber`, with `left` iterations
still to run and `i` the loop index. Returns whether `conn` is non-nil, the
last `err`, and the actions performed. -/
def dialLoop (b : Broker) : (left i : Nat) → (err : Option Nat) → Bool × Option Nat × List Action
  | 0, _, err => (false, err, [])
  | left + 1, i, _ =>
    match b.dial i with
    | .connected => (true, none, [.dial])
    | .failed e =>
      let r := dialLoop b left (i + 1) (some e)
      (r.1, r.2.1, [.dial, .sleep retryInterval] ++ r.2.2)

/-- The creation loop `for i := range retriesNumber`, with `left` iterations
still to run and `i` the loop index, followed by the final `return` after the
loop. Returns the function's result (`none` is a nil error) and the actions
performed. -/
def createLoop (b : Broker) : (left i : Nat) → (err : Option KafkaErr) → Option BootErr × List Action
  | 0, _, err => (some (.createExhausted retriesNumber err), [])
  | left + 1, i, _ =>
    match b.createTopics i with
    | none => (none, [.createTopics])
    | some .topicAlreadyExists => (none, [.createTopics])
    | some .invalidReplicationFactor =>
      let r := createLoop b left (i + 1) (some .invalidReplicationFactor)
      (r.1, [.createTopics, .sleep retryInterval] ++ r.2)
    | some (.other c) => (some (.nonRetryable (.other c)), [.createTopics])

/-- Result of a run of `createTopicIfNotExists`: the returned error and the
actions of the two phases. -/
structure BootRun where
  err : Option BootErr
  connTrace : List Action
  createTrace : List Action
  deriving DecidableEq

/-- The function `createTopicIfNotExists`. The deferred `conn.Close()` is the
last action of the creation phase. -/
def createTopicIfNotExists (b : Broker) : BootRun :=
  let d := dialLoop b retriesNumber 0 none
  if d.1 then
    let c := createLoop b retriesNumber 0 none
    { err := c.1, connTrace := d.2.2, createTrace := c.2 ++ [.close] }
  else
    { err := some (.connectFailed retriesNumber d.2.1), connTrace := d.2.2, createTrace := [] }

/-- Number of `kafka.Dial` calls in a trace. -/
def dials (t : List Action) : Nat := t.count .dial

/-- Number of `conn.CreateTopics` calls in a trace. -/
def creates (t : List Action) : Nat := t.count .createTopics

/-- The backoff waits of a trace, in milliseconds. -/
def waits : List Action → List Nat
  | [] => []
  | .sleep ms :: t => ms :: waits t
  | _ :: t => waits t

/-- A broker that accepts the first connection and answers `CreateTopics` with
the given answers, then with success. -/
def scriptedBroker (answers : List (Option KafkaErr)) : Broker where
  dial := fun _ => .connected
  createTopics := fun i => (answers.get? i).getD none

/-- A broker whose first `fails` connections fail and that answers every
`CreateTopics` call with the same answer. -/
def flakyBroker (fails : Nat) (answer : Option KafkaErr) : Broker where
  dial := fun i => if i < fails then .failed 1 else .connected
  createTopics := fun _ => answer


/-! ## `unicode/utf8`: `DecodeRune` and `EncodeRune`

Runes are natural numbers. The masks and shifts of the Go code are written
with `%`, `/` and `*`, and a bitwise or of disjoint bit fields with `+`. -/

/-- The rune `utf8.RuneError` (`U+FFFD`). -/
def RuneError : Nat := 0xFFFD

/-- The entry of the table `first` for a lead byte `p0 ≥ 0x80`: the size of
the encoding and the accepted range of the second byte (`acceptRanges`);
`none` is the entry `xx` of an invalid lead byte. -/
def leadInfo (p0 : Nat) : Option (Nat × Nat × Nat) :=
  if p0 < 0xC2 then none
  else if p0 < 0xE0 then some (2, 0x80, 0xBF)
  else if p0 = 0xE0 then some (3, 0xA0, 0xBF)
  else if p0 = 0xED then some (3, 0x80, 0x9F)
  else if p0 < 0xF0 then some (3, 0x80, 0xBF)
  else if p0 = 0xF0 then some (4, 0x90, 0xBF)
  else if p0 < 0xF4 then some (4, 0x80, 0xBF)
  else if p0 = 0xF4 then some (4, 0x80, 0x8F)
  else none

/-- The function `utf8.DecodeRune` (and `DecodeRuneInString`): the first rune
of `p` and its width in bytes; `(RuneError, 1)` for an invalid encoding and
`(RuneError, 0)` for empty input. -/
def decodeRune (p : List Byte) : Nat × Nat :=
  match p with
  | [] => (RuneError, 0)
  | p0 :: _ =>
    if p0.val < 0x80 then (p0.val, 1)
    else
      match leadInfo p0.val with
      | none => (RuneError, 1)
      | some (sz, lo, hi) =>
        if p.length < sz then (RuneError, 1)
        else
          let b1 := (p.getD 1 0).val
          if b1 < lo ∨ hi < b1 then (RuneError, 1)
          else if sz ≤ 2 then (p0.val % 32 * 64 + b1 % 64, 2)
          else
            let b2 := (p.getD 2 0).val
            if b2 < 0x80 ∨ 0xBF < b2 then (RuneError, 1)
            else if sz ≤ 3 then (p0.val % 16 * 4096 + b1 % 64 * 64 + b2 % 64, 3)
            else
              let b3 := (p.getD 3 0).val
              if b3 < 0x80 ∨ 0xBF < b3 then (RuneError, 1)
              else (p0.val % 8 * 262144 + b1 % 64 * 4096 + b2 % 64 * 64 + b3 % 64, 4)

/-- The function `utf8.EncodeRune` (and `AppendRune`) on a non-negative rune:
the bytes written. -/
def encodeRune (r : Nat) : List Byte :=
  if r ≤ 0x7F then [byte r]
  else if r ≤ 0x7FF then [byte (0xC0 + r / 64), byte (0x80 + r % 64)]
  else if 0x10FFFF < r ∨ (0xD800 ≤ r ∧ r ≤ 0xDFFF) then [0xEF, 0xBF, 0xBD]
  else if r ≤ 0xFFFF then
    [byte (0xE0 + r / 4096), byte (0x80 + r / 64 % 64), byte (0x80 + r % 64)]
  else
    [byte (0xF0 + r / 262144), byte (0x80 + r / 4096 % 64), byte (0x80 + r / 64 % 64),
      byte (0x80 + r % 64)]

/-- The function `utf8.Valid` (and `ValidString`), with `fuel` bounding the
number of runes: every rune of `p` decodes without error. -/
def validUTF8Loop : Nat → List Byte → Bool
  | _, [] => true
  | 0, _ :: _ => false
  | fuel + 1, p@(_ :: _) =>
    let d := decodeRune p
    if d.1 = RuneError ∧ d.2 = 1 then false
    else validUTF8Loop fuel (p.drop d.2)

/-- The function `utf8.ValidString`. -/
def validUTF8 (s : GoString) : Bool := validUTF8Loop s.length s

/-! ## `encoding/json`: `Marshal` of an `Event`

The standard library is not part of the repository; these definitions follow
`encoding/json` (`encode.go`) and `strconv` of the Go release the program is
written for (Go 1.22, the first with `for i := range n`). -/

/-- The table `hex = "0123456789abcdef"`. -/
def hexDigit (n : Nat) : Byte := (ascii "0123456789abcdef").getD n 0

/-- The table `htmlSafeSet`: the ASCII bytes copied unescaped by `Marshal`,
which are the bytes from space to `0x7f` other than `"`, `\`, `<`, `>`, `&`. -/
def htmlSafe (b : Nat) : Bool :=
  decide (0x20 ≤ b ∧ b < 0x80 ∧ b ≠ 0x22 ∧ b ≠ 0x5C ∧ b ≠ 0x3C ∧ b ≠ 0x3E ∧ b ≠ 0x26)

/-- The `switch b` of `appendString`: the escape sequence of an ASCII byte that
is not in `htmlSafeSet`. -/
def escapeByte (b : Byte) : List Byte :=
  if b = 0x5C ∨ b = 0x22 then [0x5C, b]
  else if b = 0x08 then ascii "\\b"
  else if b = 0x0C then ascii "\\f"
  else if b = 0x0A then ascii "\\n"
  else if b = 0x0D then ascii "\\r"
  else if b = 0x09 then ascii "\\t"
  else ascii "\\u00" ++ [hexDigit (b.val / 16), hexDigit (b.val % 16)]

/-- The loop of `appendString` (with `escapeHTML` set) on the bytes of `src`
from index `i` on, returning the bytes appended between the two quotes.
`fuel` bounds the number of iterations; each one advances `i`. -/
def appendStringLoop : Nat → List Byte → List Byte
  | _, [] => []
  | 0, _ :: _ => []
  | fuel + 1, b :: rest =>
    if b.val < 0x80 then
      if htmlSafe b.val then b :: appendStringLoop fuel rest
      else escapeByte b ++ appendStringLoop fuel rest
    else
      let d := decodeRune ((b :: rest).take 4)
      if d.1 = RuneError ∧ d.2 = 1 then
        ascii "\\ufffd" ++ appendStringLoop fuel rest
      else if d.1 = 0x2028 ∨ d.1 = 0x2029 then
        ascii "\\u202" ++ [hexDigit (d.1 % 16)] ++ appendStringLoop fuel ((b :: rest).drop d.2)
      else
        (b :: rest).take d.2 ++ appendStringLoop fuel ((b :: rest).drop d.2)

/-- The function `appendString` with `escapeHTML` set: the JSON string literal
of a Go string. -/
def appendString (src : GoString) : List Byte :=
  [0x22] ++ appendStringLoop src.length src ++ [0x22]

/-- The decimal digits of `n`, most significant first (`fuel` bounds their
number). -/
def formatUintLoop : Nat → Nat → List Byte
  | 0, _ => []
  | fuel + 1, n =>
    if n < 10 then [byte (0x30 + n)]
    else formatUintLoop fuel (n / 10) ++ [byte (0x30 + n % 10)]

/-- The function `strconv.AppendInt(dst, v, 10)` (also the verb `%d` of
`fmt.Sprintf`): the decimal representation of an integer. -/
def formatInt (v : Int) : List Byte :=
  if v < 0 then 0x2D :: formatUintLoop (v.natAbs + 1) v.natAbs
  else formatUintLoop (v.natAbs + 1) v.natAbs

/-- The bytes `json.Marshal(event)` returns for an `Event`: the struct encoder
writes the fields in declaration order under their `json` tags. -/
def marshalEvent (e : Event) : List Byte :=
  [0x7B] ++ ascii "\"user_id\":" ++ appendString e.UserID ++
  [0x2C] ++ ascii "\"event_type\":" ++ appendString e.EventType ++
  [0x2C] ++ ascii "\"timestamp\":" ++ formatInt e.Timestamp ++
  [0x2C] ++ ascii "\"url\":" ++ appendString e.URL ++ [0x7D]

/-- The call `json.Marshal(event)` of the producer: for an `Event` (strings and
an integer) it never returns an error. `none` stands for a non-nil error. -/
def jsonMarshal (e : Event) : Option (List Byte) := some (marshalEvent e)

/-! ## `encoding/json`: `Unmarshal` into an `Event`

`Unmarshal` first checks the whole input with the scanner (`checkValid`) and
then decodes it. The model parses the input into a tree with the grammar the
scanner accepts, keeping string and number literals as written, and then
stores the tree into the struct as `decode.go` does. -/

/-- A parsed JSON text. A string is the bytes between its quotes, a number is
its literal. -/
inductive JValue where
  | null
  | bool (b : Bool)
  | number (lit : List Byte)
  | string (lit : List Byte)
  | array (items : List JValue)
  | object (members : List (List Byte × JValue))

/-- The function `isSpace` of the scanner: space, tab, carriage return, line
feed. -/
def isSpace (c : Byte) : Bool := c = 0x20 || c = 0x09 || c = 0x0D || c = 0x0A

/-- Skips the white space the scanner accepts between tokens. -/
def skipSpace : List Byte → List Byte
  | [] => []
  | c :: rest => if isSpace c then skipSpace rest else c :: rest

/-- The test `'0' <= c && c <= '9'`. -/
def isDigit (c : Byte) : Bool := decide (0x30 ≤ c.val ∧ c.val ≤ 0x39)

/-- The hexadecimal digit test of `stateInStringEscU`. -/
def isHex (c : Byte) : Bool :=
  decide ((0x30 ≤ c.val ∧ c.val ≤ 0x39) ∨ (0x61 ≤ c.val ∧ c.val ≤ 0x66) ∨
    (0x41 ≤ c.val ∧ c.val ≤ 0x46))

/-- The scanner states inside a string literal: `stateInString`,
`stateInStringEsc`, and `stateInStringEscU`, `…U1`, `…U12`, `…U123` (with the
number of hexadecimal digits seen). -/
inductive StrState where
  | inString
  | esc
  | escU (seen : Nat)
  deriving DecidableEq

/-- The scanner on a string literal, from just after the opening quote: the
bytes up to the closing quote and the input after it; `none` is an input the
scanner refuses. -/
def scanString : StrState → List Byte → Option (List Byte × List Byte)
  | _, [] => none
  | .inString, c :: rest =>
    if c = 0x22 then some ([], rest)
    else if c = 0x5C then (scanString .esc rest).map (fun r => (c :: r.1, r.2))
    else if c.val < 0x20 then none
    else (scanString .inString rest).map (fun r => (c :: r.1, r.2))
  | .esc, c :: rest =>
    if c = 0x62 ∨ c = 0x66 ∨ c = 0x6E ∨ c = 0x72 ∨ c = 0x74 ∨ c = 0x5C ∨ c = 0x2F ∨ c = 0x22 then
      (scanString .inString rest).map (fun r => (c :: r.1, r.2))
    else if c = 0x75 then (scanString (.escU 0) rest).map (fun r => (c :: r.1, r.2))
    else none
  | .escU seen, c :: rest =>
    if isHex c then
      (scanString (if seen < 3 then .escU (seen + 1) else .inString) rest).map
        (fun r => (c :: r.1, r.2))
    else none

/-- One optional byte satisfying `p`: the byte taken (if any) and the input
after it. -/
def optByte (p : Byte → Bool) : List Byte → List Byte × List Byte
  | [] => ([], [])
  | c :: r => if p c then ([c], r) else ([], c :: r)

/-- The scanner on the integer part of a number (`stateBeginValue`,
`stateNeg`, `state0`, `state1`): an optional minus sign, then `0` or a
non-zero digit followed by digits. -/
def scanIntPart (s : List Byte) : Option (List Byte × List Byte) :=
  let sg := optByte (fun x => x = 0x2D) s
  match sg.2 with
  | [] => none
  | c :: r =>
    if c = 0x30 then some (sg.1 ++ [c], r)
    else if isDigit c then some (sg.1 ++ c :: r.takeWhile isDigit, r.dropWhile isDigit)
    else none

/-- The scanner on the optional fraction of a number (`stateDot`,
`stateDot0`): a dot and at least one digit. -/
def scanFraction : List Byte → Option (List Byte × List Byte)
  | [] => some ([], [])
  | c :: r =>
    if c = 0x2E then
      if r.takeWhile isDigit = [] then none
      else some (c :: r.takeWhile isDigit, r.dropWhile isDigit)
    else some ([], c :: r)

/-- The scanner on the optional exponent of a number (`stateE`, `stateESign`,
`stateE0`): `e` or `E`, an optional sign and at least one digit. -/
def scanExponent : List Byte → Option (List Byte × List Byte)
  | [] => some ([], [])
  | c :: r =>
    if c = 0x65 ∨ c = 0x45 then
      let sg := optByte (fun x => x = 0x2B || x = 0x2D) r
      if sg.2.takeWhile isDigit = [] then none
      else some (c :: sg.1 ++ sg.2.takeWhile isDigit, sg.2.dropWhile isDigit)
    else some ([], c :: r)

/-- The scanner on a number literal: the literal and the input after it. -/
def scanNumber (s : List Byte) : Option (List Byte × List Byte) :=
  match scanIntPart s with
  | none => none
  | some (int, r1) =>
    match scanFraction r1 with
    | none => none
    | some (frac, r2) =>
      match scanExponent r2 with
      | none => none
      | some (exp, r3) => some (int ++ frac ++ exp, r3)

/-- The scanner on the rest of a literal `true`, `false` or `null`. -/
def scanWord (word : List Byte) (s : List Byte) : Option (List Byte) :=
  if s.take word.length = word then some (s.drop word.length) else none

/-- The constant `maxNestingDepth`. -/
def maxNestingDepth : Nat := 10000

mutual
/-- The scanner on a value (`stateBeginValue`), at nesting depth `depth`: the
value and the input after it. Every call consumes input, and `fuel` bounds
the number of nested calls. -/
def parseValue : Nat → Nat → List Byte → Option (JValue × List Byte)
  | 0, _, _ => none
  | fuel + 1, depth, s =>
    match skipSpace s with
    | [] => none
    | c :: rest =>
      if c = 0x7B then
        if maxNestingDepth ≤ depth then none
        else
          match skipSpace rest with
          | [] => none
          | c2 :: rest2 =>
            if c2 = 0x7D then some (.object [], rest2)
            else (parseMembers fuel (depth + 1) (c2 :: rest2)).map (fun r => (.object r.1, r.2))
      else if c = 0x5B then
        if maxNestingDepth ≤ depth then none
        else
          match skipSpace rest with
          | [] => none
          | c2 :: rest2 =>
            if c2 = 0x5D then some (.array [], rest2)
            else (parseElements fuel (depth + 1) (c2 :: rest2)).map (fun r => (.array r.1, r.2))
      else if c = 0x22 then (scanString .inString rest).map (fun r => (.string r.1, r.2))
      else if c = 0x2D ∨ isDigit c then (scanNumber (c :: rest)).map (fun r => (.number r.1, r.2))
      else if c = 0x74 then (scanWord (ascii "rue") rest).map (fun r => (.bool true, r))
      else if c = 0x66 then (scanWord (ascii "alse") rest).map (fun r => (.bool false, r))
      else if c = 0x6E then (scanWord (ascii "ull") rest).map (fun r => (.null, r))
      else none
/-- The scanner on the members of an object, from a key on
(`stateBeginString`, `stateEndValue`), up to the closing brace. -/
def parseMembers : Nat → Nat → List Byte → Option (List (List Byte × JValue) × List Byte)
  | 0, _, _ => none
  | fuel + 1, depth, s =>
    match skipSpace s with
    | [] => none
    | c :: rest =>
      if c ≠ 0x22 then none
      else
        match scanString .inString rest with
        | none => none
        | some (key, r1) =>
          match skipSpace r1 with
          | [] => none
          | c1 :: r2 =>
            if c1 ≠ 0x3A then none
            else
              match parseValue fuel depth r2 with
              | none => none
              | some (v, r3) =>
                match skipSpace r3 with
                | [] => none
                | c3 :: r4 =>
                  if c3 = 0x2C then
                    (parseMembers fuel depth r4).map (fun r => ((key, v) :: r.1, r.2))
                  else if c3 = 0x7D then some ([(key, v)], r4)
                  else none
/-- The scanner on the elements of an array, up to the closing bracket. -/
def parseElements : Nat → Nat → List Byte → Option (List JValue × List Byte)
  | 0, _, _ => none
  | fuel + 1, depth, s =>
    match parseValue fuel depth s with
    | none => none
    | some (v, r1) =>
      match skipSpace r1 with
      | [] => none
      | c :: r2 =>
        if c = 0x2C then (parseElements fuel depth r2).map (fun r => (v :: r.1, r.2))
        else if c = 0x5D then some ([v], r2)
        else none
end

/-- The function `checkValid`: the whole input is one JSON value, with white
space around it. -/
def parseJSON (data : List Byte) : Option JValue :=
  match parseValue (data.length + 1) 0 data with
  | none => none
  | some (v, rest) => if skipSpace rest = [] then some v else none

/-- The body of the loop of `getu4`: one more hexadecimal digit `c` after the
value `r`; `none` stands for the result `-1`. -/
def hexStep (r : Nat) (c : Byte) : Option Nat :=
  if 0x30 ≤ c.val ∧ c.val ≤ 0x39 then some (r * 16 + (c.val - 0x30))
  else if 0x61 ≤ c.val ∧ c.val ≤ 0x66 then some (r * 16 + (c.val - 0x61 + 10))
  else if 0x41 ≤ c.val ∧ c.val ≤ 0x46 then some (r * 16 + (c.val - 0x41 + 10))
  else none

/-- The function `getu4`: the value of the escape `\uXXXX` at the start of
`s`; `none` stands for the result `-1`. -/
def getu4 (s : List Byte) : Option Nat :=
  if s.length < 6 ∨ s.getD 0 0 ≠ 0x5C ∨ s.getD 1 0 ≠ 0x75 then none
  else ((s.drop 2).take 4).foldlM hexStep 0

/-- The function `utf16.IsSurrogate`. -/
def isSurrogate (r : Nat) : Bool := decide (0xD800 ≤ r ∧ r < 0xE000)

/-- The function `utf16.DecodeRune` on a first rune and the result of `getu4`
for the second: the rune of a valid surrogate pair, `U+FFFD` otherwise. -/
def utf16DecodeRune (r1 : Nat) (r2 : Option Nat) : Nat :=
  match r2 with
  | none => 0xFFFD
  | some r2 =>
    if 0xD800 ≤ r1 ∧ r1 < 0xDC00 ∧ 0xDC00 ≤ r2 ∧ r2 < 0xE000 then
      (r1 - 0xD800) * 1024 + (r2 - 0xDC00) + 0x10000
    else 0xFFFD

/-- The first loop of `unquoteBytes` (the fast path): the index `r` of the
first byte that is a backslash, a quote, a control character or the start of
an invalid UTF-8 encoding, or the length of `s`. -/
def unquoteFastLoop : Nat → List Byte → Nat
  | _, [] => 0
  | 0, _ :: _ => 0
  | fuel + 1, c :: rest =>
    if c = 0x5C ∨ c = 0x22 ∨ c.val < 0x20 then 0
    else if c.val < 0x80 then 1 + unquoteFastLoop fuel rest
    else
      let d := decodeRune (c :: rest)
      if d.1 = RuneError ∧ d.2 = 1 then 0
      else d.2 + unquoteFastLoop fuel ((c :: rest).drop d.2)

/-- The second loop of `unquoteBytes`, on the bytes from index `r` on: the
bytes written to `b`. `none` stands for `ok = false`. -/
def unquoteLoop : Nat → List Byte → Option (List Byte)
  | _, [] => some []
  | 0, _ :: _ => none
  | fuel + 1, c :: rest =>
    if c = 0x5C then
      match rest with
      | [] => none
      | e :: rest2 =>
        if e = 0x22 ∨ e = 0x5C ∨ e = 0x2F ∨ e = 0x27 then
          (unquoteLoop fuel rest2).map (fun t => e :: t)
        else if e = 0x62 then (unquoteLoop fuel rest2).map (fun t => 0x08 :: t)
        else if e = 0x66 then (unquoteLoop fuel rest2).map (fun t => 0x0C :: t)
        else if e = 0x6E then (unquoteLoop fuel rest2).map (fun t => 0x0A :: t)
        else if e = 0x72 then (unquoteLoop fuel rest2).map (fun t => 0x0D :: t)
        else if e = 0x74 then (unquoteLoop fuel rest2).map (fun t => 0x09 :: t)
        else if e = 0x75 then
          match getu4 (c :: rest) with
          | none => none
          | some rr =>
            let r6 := (c :: rest).drop 6
            if isSurrogate rr then
              let dec := utf16DecodeRune rr (getu4 r6)
              if dec ≠ 0xFFFD then
                (unquoteLoop fuel (r6.drop 6)).map (fun t => encodeRune dec ++ t)
              else (unquoteLoop fuel r6).map (fun t => encodeRune 0xFFFD ++ t)
            else (unquoteLoop fuel r6).map (fun t => encodeRune rr ++ t)
        else none
    else if c = 0x22 ∨ c.val < 0x20 then none
    else if c.val < 0x80 then (unquoteLoop fuel rest).map (fun t => c :: t)
    else
      let d := decodeRune (c :: rest)
      (unquoteLoop fuel ((c :: rest).drop d.2)).map (fun t => encodeRune d.1 ++ t)

/-- The function `unquoteBytes` on the bytes `s` between the quotes of a
string literal: the Go string it denotes. `none` stands for `ok = false`. -/
def unquoteBytes (s : List Byte) : Option GoString :=
  let r := unquoteFastLoop s.length s
  if r = s.length then some s
  else (unquoteLoop s.length (s.drop r)).map (fun t => s.take r ++ t)

/-- The call `strconv.ParseInt(lit, 10, 64)` on a JSON number literal: its value
when the literal is an optional minus sign followed by digits and the value
is an `int64`; `none` stands for a non-nil error. -/
def parseInt64 (lit : List Byte) : Option Int :=
  let sg := optByte (fun x => x = 0x2D) lit
  if sg.2 = [] ∨ ¬ sg.2.all isDigit then none
  else
    let n : Nat := sg.2.foldl (fun acc c => acc * 10 + (c.val - 0x30)) 0
    let v : Int := if sg.1 = [] then (n : Int) else -(n : Int)
    if isInt64 v then some v else none

/-- The fold of a rune as far as matching an ASCII name goes: `foldRune`
returns the smallest rune of the case-folding orbit, which is an ASCII letter
only for the letters themselves, for `U+017F` (long s) and for `U+212A`
(Kelvin sign). -/
def foldRune (r : Nat) : Nat :=
  if 0x61 ≤ r ∧ r ≤ 0x7A then r - 0x20
  else if r = 0x17F then 0x53
  else if r = 0x212A then 0x4B
  else r

/-- The function `foldName` (`appendFoldedName`) used to match object keys with
field names without regard to case. -/
def foldName : Nat → List Byte → List Byte
  | _, [] => []
  | 0, _ :: _ => []
  | fuel + 1, c :: rest =>
    if c.val < 0x80 then
      (if 0x61 ≤ c.val ∧ c.val ≤ 0x7A then byte (c.val - 0x20) else c) :: foldName fuel rest
    else
      let d := decodeRune (c :: rest)
      encodeRune (foldRune d.1) ++ foldName fuel ((c :: rest).drop d.2)

/-- The fields of `Event`. -/
inductive Field where
  | userID
  | eventType
  | timestamp
  | url
  deriving DecidableEq

/-- The `json` tags of the consumer's `Event` declaration. -/
def fieldNames : List (List Byte × Field) :=
  [(ascii "user_id", .userID), (ascii "event_type", .eventType),
   (ascii "timestamp", .timestamp), (ascii "url", .url)]

/-- The field an object key is stored into: the field with exactly that name
(`byExactName`), else the field with that name up to case (`byFoldedName`);
`none` when the key is ignored. -/
def lookupField (key : List Byte) : Option Field :=
  match fieldNames.find? (fun f => f.1 = key) with
  | some f => some f.2
  | none =>
    (fieldNames.find? (fun f => foldName f.1.length f.1 = foldName key.length key)).map (·.2)

/-- Stores a member value into a field (`literalStore`, `array`, `object` of
`decode.go`): `null` leaves the field as it is, a string goes into a string
field and a number into the `int64` field; anything else is an
`UnmarshalTypeError`, for which `none` stands. -/
def storeField (e : Event) (f : Field) (v : JValue) : Option Event :=
  match v with
  | .null => some e
  | .string lit =>
    match unquoteBytes lit with
    | none => none
    | some s =>
      match f with
      | .userID => some { e with UserID := s }
      | .eventType => some { e with EventType := s }
      | .url => some { e with URL := s }
      | .timestamp => none
  | .number lit =>
    match f with
    | .timestamp => (parseInt64 lit).map (fun n => { e with Timestamp := n })
    | _ => none
  | .bool _ => none
  | .array _ => none
  | .object _ => none

/-- Stores one object member into the struct: the value of a key that matches
no field is skipped. -/
def storeMember (e : Event) (m : List Byte × JValue) : Option Event :=
  match unquoteBytes m.1 with
  | none => none
  | some key =>
    match lookupField key with
    | none => some e
    | some f => storeField e f m.2

/-- Decodes a parsed value into an `Event` that starts as the zero value: an
object is stored member by member, `null` leaves the struct unchanged, and any
other value is an `UnmarshalTypeError`. -/
def decodeEvent (v : JValue) : Option Event :=
  match v with
  | .null => some Event.zero
  | .object members => members.foldlM storeMember Event.zero
  | _ => none

/-- The call `json.Unmarshal(m.Value, &event)` of the consumer on a fresh
`event`: the decoded `Event`, or `none` for a non-nil error. -/
def jsonUnmarshal (data : List Byte) : Option Event :=
  (parseJSON data).bind decodeEvent

/-! ## Event generator and producer loop (`producer/main.go`) -/

/-- The call `rand.IntN(n)` when the randomness source yields `raw`: a number in
`[0, n)`; `none` stands for the panic on `n ≤ 0`. -/
def intN (raw n : Nat) : Option Nat := if n = 0 then none else some (raw % n)

/-- The slice `eventTypes` of `generateEvent`. -/
def eventTypes : List GoString :=
  [ascii "view", ascii "click", ascii "purchase", ascii "add_to_cart", ascii "login"]

/-- The slice `urls` of `generateEvent`. -/
def urls : List GoString :=
  [ascii "/home", ascii "/product/a", ascii "/product/b", ascii "/checkout", ascii "/blog",
   ascii "/about"]

/-- The function `generateEvent`, given what the randomness source yields for
its three `rand.IntN` calls and the reading `now` of `time.Now().UnixMilli()`.
`none` stands for a panic (an index out of range, or `rand.IntN` on `0`). -/
def generateEvent (r1 r2 r3 : Nat) (now : Int) : Option Event :=
  match intN r1 10 with
  | none => none
  | some k =>
    let userID := ascii "user_" ++ formatInt ((k : Int) + 1)
    match intN r2 eventTypes.length with
    | none => none
    | some i =>
      match eventTypes.get? i with
      | none => none
      | some eventType =>
        match intN r3 urls.length with
        | none => none
        | some j =>
          match urls.get? j with
          | none => none
          | some url =>
            some { UserID := userID, EventType := eventType, Timestamp := now, URL := url }

/-- What the environment answers during one iteration of the producer loop:
the randomness source for `generateEvent`, the clock, whether
`writer.WriteMessages` returns nil, and the randomness source for the pause. -/
structure ProducerInput where
  r1 : Nat
  r2 : Nat
  r3 : Nat
  now : Int
  publishOk : Bool
  rSleep : Nat

/-- What the producer loop has done: the counter `eventsProduced`, the message
values passed to `writer.WriteMessages`, and the pauses in milliseconds. -/
structure ProducerState where
  produced : Nat
  published : List (List Byte)
  sleeps : List Nat
  deriving DecidableEq

/-- One iteration of the loop `for { ... }` of the producer's `main`. `none`
stands for a panic. -/
def producerStep (st : ProducerState) (inp : ProducerInput) : Option ProducerState :=
  match generateEvent inp.r1 inp.r2 inp.r3 inp.now with
  | none => none
  | some event =>
    match jsonMarshal event with
    | none => some st
    | some eventJSON =>
      let st1 := { st with published := st.published ++ [eventJSON] }
      let st2 := if inp.publishOk then { st1 with produced := st1.produced + 1 } else st1
      match intN inp.rSleep 4 with
      | none => none
      | some k => some { st2 with sleeps := st2.sleeps ++ [k * 500 + 1000] }

/-- The first iterations of the producer loop, one per input. -/
def producerLoop (st : ProducerState) (inps : List ProducerInput) : Option ProducerState :=
  inps.foldlM producerStep st

/-! ## Consumer loop (`consumer/main.go`) -/

/-- The document passed to `collection.InsertOne` (the `bson.M` literal). -/
structure Document where
  user_id : GoString
  event_type : GoString
  timestamp : Int
  url : GoString
  processing_time : Int
  latency_ms : Int
  deriving DecidableEq

/-- Lines 90 to 102 of the consumer's `main`: the document built from a
deserialized event and the two readings of `time.Now().UnixMilli()`, the
first into `ingestionTime` and the second into `processingTime`. -/
def enrich (event : Event) (clock1 clock2 : Int) : Document :=
  let ingestionTime := clock1
  let processingTime := clock2
  let latencyMs := wrap64 (processingTime - event.Timestamp)
  { user_id := event.UserID
    event_type := event.EventType
    timestamp := event.Timestamp
    url := event.URL
    processing_time := ingestionTime
    latency_ms := latencyMs }

/-- Result of `reader.ReadMessage`: an error, or a message with its value. -/
inductive ReadResult where
  | error
  | message (value : List Byte)
  deriving DecidableEq

/-- What the environment answers during one iteration of the consumer loop:
the read, the two clock readings, and whether `InsertOne` returns nil. -/
structure ConsumerInput where
  read : ReadResult
  clock1 : Int
  clock2 : Int
  insertOk : Bool

/-- What the consumer loop has done: the counter `eventsConsumed`, the
documents passed to `InsertOne`, and the pauses in milliseconds. -/
structure ConsumerState where
  consumed : Nat
  inserted : List Document
  sleeps : List Nat
  deriving DecidableEq

/-- One iteration of the loop `for { ... }` of the consumer's `main`. -/
def consumerStep (st : ConsumerState) (inp : ConsumerInput) : ConsumerState :=
  match inp.read with
  | .error => { st with sleeps := st.sleeps ++ [1000] }
  | .message value =>
    match jsonUnmarshal value with
    | none => st
    | some event =>
      let st1 := { st with inserted := st.inserted ++ [enrich event inp.clock1 inp.clock2] }
      if inp.insertOk then { st1 with consumed := st1.consumed + 1 } else st1

/-- The first iterations of the consumer loop, one per input. -/
def consumerLoop (st : ConsumerState) (inps : List ConsumerInput) : ConsumerState :=
  inps.foldl consumerStep st

/-- The payload of an input deserializes into an `Event`. -/
def deserializes (inp : ConsumerInput) : Bool :=
  match inp.read with
  | .error => false
  | .message value => (jsonUnmarshal value).isSome

/-- The event of the end-to-end scenario. -/
def scenarioEvent : Event :=
  { UserID := ascii "user_3", EventType := ascii "click", Timestamp := 1000, URL := ascii "/home" }

/-- An event whose strings hold non-ASCII runes and bytes that JSON escapes:
`é`, a quote, a line feed, `<`, `U+2028` and an emoji. -/
def unicodeEvent : Event :=
  { UserID := [0x75, 0xC3, 0xA9]
    EventType := [0x22, 0x0A, 0x3C]
    Timestamp := -1700000000123
    URL := [0x2F, 0xE2, 0x80, 0xA8, 0xF0, 0x9F, 0x98, 0x80] }

/-- A valid `Event`: its three strings are text (valid UTF-8, as
`utf8.ValidString` decides) and its timestamp is an `int64`. -/
def validEvent (e : Event) : Prop :=
  validUTF8 e.UserID = true ∧ validUTF8 e.EventType = true ∧ validUTF8 e.URL = true ∧
    isInt64 e.Timestamp

instance (e : Event) : Decidable (validEvent e) := by unfold validEvent; infer_instance

/-- The document of the end-to-end scenario. -/
def scenarioDocument : Document :=
  { user_id := ascii "user_3"
    event_type := ascii "click"
    timestamp := 1000
    url := ascii "/home"
    processing_time := 1150
    latency_ms := 150 }

/-! ## Iterations of `appendString` -/

/-- One iteration of the loop of `appendString` on valid UTF-8, as a relation
between the source bytes the iteration consumes and the bytes it appends: an
ASCII byte of `htmlSafeSet` copied, another ASCII byte escaped, a multi-byte
rune copied, or `U+2028`/`U+2029` escaped. -/
inductive EncChunk : List Byte → List Byte → Prop where
  | safe (b : Byte) (h1 : b.val < 0x80) (h2 : htmlSafe b.val = true) : EncChunk [b] [b]
  | escaped (b : Byte) (h1 : b.val < 0x80) (h2 : htmlSafe b.val = false) :
      EncChunk [b] (escapeByte b)
  | raw (chunk : List Byte) (r : Nat) (hlen : 2 ≤ chunk.length)
      (hhi : ∀ x ∈ chunk, 0x80 ≤ x.val)
      (hdec : ∀ q, decodeRune (chunk ++ q) = (r, chunk.length))
      (henc : encodeRune r = chunk) : EncChunk chunk chunk
  | lineSep (chunk : List Byte) (r : Nat) (hr : r = 0x2028 ∨ r = 0x2029)
      (henc : encodeRune r = chunk) :
      EncChunk chunk (ascii "\\u202" ++ [hexDigit (r % 16)])

/-! ## Theorems: UTF-8 -/

theorem byte_val (n : Nat) : (byte n).val = n % 256 := rfl

theorem byte_of_val (b : Byte) : byte b.val = b := by
  apply Fin.ext
  simp [byte_val, Nat.mod_eq_of_lt b.isLt]

/-- The entries of the table `first` for lead bytes of multi-byte encodings. -/
theorem leadInfo_some {p0 sz lo hi : Nat} (h : leadInfo p0 = some (sz, lo, hi)) :
    (sz = 2 ∧ lo = 0x80 ∧ hi = 0xBF ∧ 0xC2 ≤ p0 ∧ p0 < 0xE0) ∨
    (sz = 3 ∧ lo = 0xA0 ∧ hi = 0xBF ∧ p0 = 0xE0) ∨
    (sz = 3 ∧ lo = 0x80 ∧ hi = 0x9F ∧ p0 = 0xED) ∨
    (sz = 3 ∧ lo = 0x80 ∧ hi = 0xBF ∧ 0xE1 ≤ p0 ∧ p0 < 0xF0 ∧ p0 ≠ 0xED) ∨
    (sz = 4 ∧ lo = 0x90 ∧ hi = 0xBF ∧ p0 = 0xF0) ∨
    (sz = 4 ∧ lo = 0x80 ∧ hi = 0xBF ∧ 0xF1 ≤ p0 ∧ p0 < 0xF4) ∨
    (sz = 4 ∧ lo = 0x80 ∧ hi = 0x8F ∧ p0 = 0xF4) := by
  unfold leadInfo at h
  by_cases c1 : p0 < 0xC2
  · rw [if_pos c1] at h; cases h
  rw [if_neg c1] at h
  by_cases c2 : p0 < 0xE0
  · rw [if_pos c2] at h; cases h
    exact Or.inl ⟨rfl, rfl, rfl, Nat.le_of_not_lt c1, c2⟩
  rw [if_neg c2] at h
  by_cases c3 : p0 = 0xE0
  · rw [if_pos c3] at h; cases h
    exact Or.inr (Or.inl ⟨rfl, rfl, rfl, c3⟩)
  rw [if_neg c3] at h
  by_cases c4 : p0 = 0xED
  · rw [if_pos c4] at h; cases h
    exact Or.inr (Or.inr (Or.inl ⟨rfl, rfl, rfl, c4⟩))
  rw [if_neg c4] at h
  by_cases c5 : p0 < 0xF0
  · rw [if_pos c5] at h; cases h
    exact Or.inr (Or.inr (Or.inr (Or.inl ⟨rfl, rfl, rfl, by omega, c5, c4⟩)))
  rw [if_neg c5] at h
  by_cases c6 : p0 = 0xF0
  · rw [if_pos c6] at h; cases h
    exact Or.inr (Or.inr (Or.inr (Or.inr (Or.inl ⟨rfl, rfl, rfl, c6⟩))))
  rw [if_neg c6] at h
  by_cases c7 : p0 < 0xF4
  · rw [if_pos c7] at h; cases h
    exact Or.inr (Or.inr (Or.inr (Or.inr (Or.inr (Or.inl ⟨rfl, rfl, rfl, by omega, c7⟩)))))
  rw [if_neg c7] at h
  by_cases c8 : p0 = 0xF4
  · rw [if_pos c8] at h; cases h
    exact Or.inr (Or.inr (Or.inr (Or.inr (Or.inr (Or.inr ⟨rfl, rfl, rfl, c8⟩)))))
  rw [if_neg c8] at h; cases h

theorem decodeRune_two (b b1 : Byte) (q : List Byte) (lo hi : Nat)
    (h : leadInfo b.val = some (2, lo, hi)) (hb : 0x80 ≤ b.val)
    (h1 : ¬ (b1.val < lo ∨ hi < b1.val)) :
    decodeRune (b :: b1 :: q) = (b.val % 32 * 64 + b1.val % 64, 2) := by
  have hb' : ¬ b.val < 0x80 := by omega
  simp [decodeRune, hb', h, h1]

theorem decodeRune_three (b b1 b2 : Byte) (q : List Byte) (lo hi : Nat)
    (h : leadInfo b.val = some (3, lo, hi)) (hb : 0x80 ≤ b.val)
    (h1 : ¬ (b1.val < lo ∨ hi < b1.val)) (h2 : ¬ (b2.val < 0x80 ∨ 0xBF < b2.val)) :
    decodeRune (b :: b1 :: b2 :: q)
      = (b.val % 16 * 4096 + b1.val % 64 * 64 + b2.val % 64, 3) := by
  have hb' : ¬ b.val < 0x80 := by omega
  simp [decodeRune, hb', h, h1, h2]

theorem decodeRune_four (b b1 b2 b3 : Byte) (q : List Byte) (lo hi : Nat)
    (h : leadInfo b.val = some (4, lo, hi)) (hb : 0x80 ≤ b.val)
    (h1 : ¬ (b1.val < lo ∨ hi < b1.val)) (h2 : ¬ (b2.val < 0x80 ∨ 0xBF < b2.val))
    (h3 : ¬ (b3.val < 0x80 ∨ 0xBF < b3.val)) :
    decodeRune (b :: b1 :: b2 :: b3 :: q)
      = (b.val % 8 * 262144 + b1.val % 64 * 4096 + b2.val % 64 * 64 + b3.val % 64, 4) := by
  have hb' : ¬ b.val < 0x80 := by omega
  simp [decodeRune, hb', h, h1, h2, h3]

theorem decodeRune_two_inv (b : Byte) (rest : List Byte) (lo hi : Nat)
    (h : leadInfo b.val = some (2, lo, hi)) (hb : 0x80 ≤ b.val)
    (hv : ¬ ((decodeRune (b :: rest)).1 = RuneError ∧ (decodeRune (b :: rest)).2 = 1)) :
    ∃ b1 q, rest = b1 :: q ∧ ¬ (b1.val < lo ∨ hi < b1.val) := by
  have hb' : ¬ b.val < 0x80 := by omega
  rcases rest with _ | ⟨b1, q⟩
  · simp [decodeRune, hb', h] at hv
  · refine ⟨b1, q, rfl, ?_⟩
    intro hc
    simp [decodeRune, hb', h, hc] at hv

theorem decodeRune_three_inv (b : Byte) (rest : List Byte) (lo hi : Nat)
    (h : leadInfo b.val = some (3, lo, hi)) (hb : 0x80 ≤ b.val)
    (hv : ¬ ((decodeRune (b :: rest)).1 = RuneError ∧ (decodeRune (b :: rest)).2 = 1)) :
    ∃ b1 b2 q, rest = b1 :: b2 :: q ∧ ¬ (b1.val < lo ∨ hi < b1.val) ∧
      ¬ (b2.val < 0x80 ∨ 0xBF < b2.val) := by
  have hb' : ¬ b.val < 0x80 := by omega
  rcases rest with _ | ⟨b1, _ | ⟨b2, q⟩⟩
  · simp [decodeRune, hb', h] at hv
  · simp [decodeRune, hb', h] at hv
  · refine ⟨b1, b2, q, rfl, ?_, ?_⟩
    · intro hc
      simp [decodeRune, hb', h, hc] at hv
    · intro hc
      by_cases hc1 : b1.val < lo ∨ hi < b1.val
      · simp [decodeRune, hb', h, hc1] at hv
      · simp [decodeRune, hb', h, hc1, hc] at hv

theorem decodeRune_four_inv (b : Byte) (rest : List Byte) (lo hi : Nat)
    (h : leadInfo b.val = some (4, lo, hi)) (hb : 0x80 ≤ b.val)
    (hv : ¬ ((decodeRune (b :: rest)).1 = RuneError ∧ (decodeRune (b :: rest)).2 = 1)) :
    ∃ b1 b2 b3 q, rest = b1 :: b2 :: b3 :: q ∧ ¬ (b1.val < lo ∨ hi < b1.val) ∧
      ¬ (b2.val < 0x80 ∨ 0xBF < b2.val) ∧ ¬ (b3.val < 0x80 ∨ 0xBF < b3.val) := by
  have hb' : ¬ b.val < 0x80 := by omega
  rcases rest with _ | ⟨b1, _ | ⟨b2, _ | ⟨b3, q⟩⟩⟩
  · simp [decodeRune, hb', h] at hv
  · simp [decodeRune, hb', h] at hv
  · simp [decodeRune, hb', h] at hv
  · by_cases hc1 : b1.val < lo ∨ hi < b1.val
    · simp [decodeRune, hb', h, hc1] at hv
    · by_cases hc2 : b2.val < 0x80 ∨ 0xBF < b2.val
      · simp [decodeRune, hb', h, hc1, hc2] at hv
      · by_cases hc3 : b3.val < 0x80 ∨ 0xBF < b3.val
        · simp [decodeRune, hb', h, hc1, hc2, hc3] at hv
        · exact ⟨b1, b2, b3, q, rfl, hc1, hc2, hc3⟩

/-- Arithmetic of a two-byte encoding. -/
theorem encodeRune_two (k m : Nat) (hm : m < 64) (h1 : 0x80 ≤ k * 64 + m)
    (h2 : k * 64 + m ≤ 0x7FF) :
    encodeRune (k * 64 + m) = [byte (0xC0 + k), byte (0x80 + m)] := by
  have e1 : (k * 64 + m) / 64 = k := by omega
  have e2 : (k * 64 + m) % 64 = m := by omega
  unfold encodeRune
  rw [if_neg (by omega), if_pos (by omega), e1, e2]

theorem decodeRune_multibyte_two (b : Byte) (rest : List Byte) (lo hi : Nat)
    (h : leadInfo b.val = some (2, lo, hi))
    (hr : lo = 0x80 ∧ hi = 0xBF ∧ 0xC2 ≤ b.val ∧ b.val < 0xE0)
    (hv : ¬ ((decodeRune (b :: rest)).1 = RuneError ∧ (decodeRune (b :: rest)).2 = 1)) :
    ∃ chunk tail, b :: rest = chunk ++ tail ∧ (decodeRune (b :: rest)).2 = chunk.length ∧
      2 ≤ chunk.length ∧ chunk.length ≤ 4 ∧ (∀ x ∈ chunk, 0x80 ≤ x.val) ∧
      0x80 ≤ (decodeRune (b :: rest)).1 ∧
      encodeRune (decodeRune (b :: rest)).1 = chunk ∧
      ∀ q, decodeRune (chunk ++ q) = decodeRune (b :: rest) := by
  have hb : 0x80 ≤ b.val := by omega
  obtain ⟨b1, q, rfl, h1⟩ := decodeRune_two_inv b rest _ _ h hb hv
  have hd := decodeRune_two b b1 q _ _ h hb h1
  have hk : b.val % 32 < 32 := Nat.mod_lt _ (by decide)
  have hm : b1.val % 64 < 64 := Nat.mod_lt _ (by decide)
  have ek : 0xC0 + b.val % 32 = b.val := by omega
  have em : 0x80 + b1.val % 64 = b1.val := by omega
  have hlow : 0x80 ≤ b.val % 32 * 64 + b1.val % 64 := by omega
  refine ⟨[b, b1], q, rfl, ?_, by simp, by simp, ?_, ?_, ?_, ?_⟩
  · rw [hd]; rfl
  · intro x hx
    simp only [List.mem_cons, List.mem_singleton, List.not_mem_nil, or_false] at hx
    rcases hx with rfl | rfl <;> omega
  · rw [hd]
    exact hlow
  · rw [hd]
    show encodeRune (b.val % 32 * 64 + b1.val % 64) = [b, b1]
    rw [encodeRune_two _ _ hm hlow (by omega), ek, em, byte_of_val, byte_of_val]
  · intro q'
    rw [hd]
    exact decodeRune_two b b1 q' _ _ h hb h1

/-- Arithmetic of a three-byte encoding. -/
theorem encodeRune_three (k m n : Nat) (hk : k < 16) (hm : m < 64) (hn : n < 64)
    (h1 : 0x800 ≤ k * 4096 + m * 64 + n)
    (h2 : ¬ (0xD800 ≤ k * 4096 + m * 64 + n ∧ k * 4096 + m * 64 + n ≤ 0xDFFF)) :
    encodeRune (k * 4096 + m * 64 + n) = [byte (0xE0 + k), byte (0x80 + m), byte (0x80 + n)] := by
  have e1 : (k * 4096 + m * 64 + n) / 4096 = k := by omega
  have e2 : (k * 4096 + m * 64 + n) / 64 % 64 = m := by omega
  have e3 : (k * 4096 + m * 64 + n) % 64 = n := by omega
  unfold encodeRune
  rw [if_neg (by omega), if_neg (by omega), if_neg (by omega), if_pos (by omega), e1, e2, e3]

theorem decodeRune_multibyte_three (b : Byte) (rest : List Byte) (lo hi : Nat)
    (h : leadInfo b.val = some (3, lo, hi))
    (hr : (lo = 0xA0 ∧ hi = 0xBF ∧ b.val = 0xE0) ∨ (lo = 0x80 ∧ hi = 0x9F ∧ b.val = 0xED) ∨
      (lo = 0x80 ∧ hi = 0xBF ∧ 0xE1 ≤ b.val ∧ b.val < 0xF0 ∧ b.val ≠ 0xED))
    (hv : ¬ ((decodeRune (b :: rest)).1 = RuneError ∧ (decodeRune (b :: rest)).2 = 1)) :
    ∃ chunk tail, b :: rest = chunk ++ tail ∧ (decodeRune (b :: rest)).2 = chunk.length ∧
      2 ≤ chunk.length ∧ chunk.length ≤ 4 ∧ (∀ x ∈ chunk, 0x80 ≤ x.val) ∧
      0x80 ≤ (decodeRune (b :: rest)).1 ∧
      encodeRune (decodeRune (b :: rest)).1 = chunk ∧
      ∀ q, decodeRune (chunk ++ q) = decodeRune (b :: rest) := by
  have hb : 0x80 ≤ b.val := by omega
  obtain ⟨b1, b2, q, rfl, h1, h2⟩ := decodeRune_three_inv b rest _ _ h hb hv
  have hd := decodeRune_three b b1 b2 q _ _ h hb h1 h2
  have hk : b.val % 16 < 16 := Nat.mod_lt _ (by decide)
  have hm : b1.val % 64 < 64 := Nat.mod_lt _ (by decide)
  have hn : b2.val % 64 < 64 := Nat.mod_lt _ (by decide)
  have ek : 0xE0 + b.val % 16 = b.val := by omega
  have em : 0x80 + b1.val % 64 = b1.val := by omega
  have en : 0x80 + b2.val % 64 = b2.val := by omega
  have hlow : 0x800 ≤ b.val % 16 * 4096 + b1.val % 64 * 64 + b2.val % 64 := by omega
  have hsur : ¬ (0xD800 ≤ b.val % 16 * 4096 + b1.val % 64 * 64 + b2.val % 64 ∧
      b.val % 16 * 4096 + b1.val % 64 * 64 + b2.val % 64 ≤ 0xDFFF) := by omega
  refine ⟨[b, b1, b2], q, rfl, ?_, by simp, by simp, ?_, ?_, ?_, ?_⟩
  · rw [hd]; rfl
  · intro x hx
    simp only [List.mem_cons, List.mem_singleton, List.not_mem_nil, or_false] at hx
    rcases hx with rfl | rfl | rfl <;> omega
  · rw [hd]
    show 0x80 ≤ b.val % 16 * 4096 + b1.val % 64 * 64 + b2.val % 64
    omega
  · rw [hd]
    show encodeRune (b.val % 16 * 4096 + b1.val % 64 * 64 + b2.val % 64) = [b, b1, b2]
    rw [encodeRune_three _ _ _ hk hm hn hlow hsur, ek, em, en, byte_of_val, byte_of_val,
      byte_of_val]
  · intro q'
    rw [hd]
    exact decodeRune_three b b1 b2 q' _ _ h hb h1 h2

/-- Arithmetic of a four-byte encoding. -/
theorem encodeRune_four (k m n l : Nat) (hm : m < 64) (hn : n < 64) (hl : l < 64)
    (h1 : 0x10000 ≤ k * 262144 + m * 4096 + n * 64 + l)
    (h2 : k * 262144 + m * 4096 + n * 64 + l ≤ 0x10FFFF) :
    encodeRune (k * 262144 + m * 4096 + n * 64 + l)
      = [byte (0xF0 + k), byte (0x80 + m), byte (0x80 + n), byte (0x80 + l)] := by
  have e1 : (k * 262144 + m * 4096 + n * 64 + l) / 262144 = k := by omega
  have e2 : (k * 262144 + m * 4096 + n * 64 + l) / 4096 % 64 = m := by omega
  have e3 : (k * 262144 + m * 4096 + n * 64 + l) / 64 % 64 = n := by omega
  have e4 : (k * 262144 + m * 4096 + n * 64 + l) % 64 = l := by omega
  unfold encodeRune
  rw [if_neg (by omega), if_neg (by omega), if_neg (by omega), if_neg (by omega), e1, e2, e3, e4]

theorem decodeRune_multibyte_four (b : Byte) (rest : List Byte) (lo hi : Nat)
    (h : leadInfo b.val = some (4, lo, hi))
    (hr : (lo = 0x90 ∧ hi = 0xBF ∧ b.val = 0xF0) ∨
      (lo = 0x80 ∧ hi = 0xBF ∧ 0xF1 ≤ b.val ∧ b.val < 0xF4) ∨
      (lo = 0x80 ∧ hi = 0x8F ∧ b.val = 0xF4))
    (hv : ¬ ((decodeRune (b :: rest)).1 = RuneError ∧ (decodeRune (b :: rest)).2 = 1)) :
    ∃ chunk tail, b :: rest = chunk ++ tail ∧ (decodeRune (b :: rest)).2 = chunk.length ∧
      2 ≤ chunk.length ∧ chunk.length ≤ 4 ∧ (∀ x ∈ chunk, 0x80 ≤ x.val) ∧
      0x80 ≤ (decodeRune (b :: rest)).1 ∧
      encodeRune (decodeRune (b :: rest)).1 = chunk ∧
      ∀ q, decodeRune (chunk ++ q) = decodeRune (b :: rest) := by
  have hb : 0x80 ≤ b.val := by omega
  obtain ⟨b1, b2, b3, q, rfl, h1, h2, h3⟩ := decodeRune_four_inv b rest _ _ h hb hv
  have hd := decodeRune_four b b1 b2 b3 q _ _ h hb h1 h2 h3
  have hm : b1.val % 64 < 64 := Nat.mod_lt _ (by decide)
  have hn : b2.val % 64 < 64 := Nat.mod_lt _ (by decide)
  have hl : b3.val % 64 < 64 := Nat.mod_lt _ (by decide)
  have ek : 0xF0 + b.val % 8 = b.val := by omega
  have em : 0x80 + b1.val % 64 = b1.val := by omega
  have en : 0x80 + b2.val % 64 = b2.val := by omega
  have el : 0x80 + b3.val % 64 = b3.val := by omega
  have hlow : 0x10000 ≤ b.val % 8 * 262144 + b1.val % 64 * 4096 + b2.val % 64 * 64
      + b3.val % 64 := by omega
  have hhigh : b.val % 8 * 262144 + b1.val % 64 * 4096 + b2.val % 64 * 64
      + b3.val % 64 ≤ 0x10FFFF := by omega
  refine ⟨[b, b1, b2, b3], q, rfl, ?_, by simp, by simp, ?_, ?_, ?_, ?_⟩
  · rw [hd]; rfl
  · intro x hx
    simp only [List.mem_cons, List.mem_singleton, List.not_mem_nil, or_false] at hx
    rcases hx with rfl | rfl | rfl | rfl <;> omega
  · rw [hd]
    show 0x80 ≤ b.val % 8 * 262144 + b1.val % 64 * 4096 + b2.val % 64 * 64 + b3.val % 64
    omega
  · rw [hd]
    show encodeRune (b.val % 8 * 262144 + b1.val % 64 * 4096 + b2.val % 64 * 64 + b3.val % 64)
      = [b, b1, b2, b3]
    rw [encodeRune_four _ _ _ _ hm hn hl hlow hhigh, ek, em, en, el, byte_of_val,
      byte_of_val, byte_of_val, byte_of_val]
  · intro q'
    rw [hd]
    exact decodeRune_four b b1 b2 b3 q' _ _ h hb h1 h2 h3

/-- A multi-byte rune that `DecodeRune` accepts: its encoding is a chunk of 2
to 4 bytes, all at least `0x80`, that `EncodeRune` gives back, and
`DecodeRune` reads nothing after the chunk. -/
theorem decodeRune_multibyte (b : Byte) (rest : List Byte) (hb : 0x80 ≤ b.val)
    (hv : ¬ ((decodeRune (b :: rest)).1 = RuneError ∧ (decodeRune (b :: rest)).2 = 1)) :
    ∃ chunk tail, b :: rest = chunk ++ tail ∧ (decodeRune (b :: rest)).2 = chunk.length ∧
      2 ≤ chunk.length ∧ chunk.length ≤ 4 ∧ (∀ x ∈ chunk, 0x80 ≤ x.val) ∧
      0x80 ≤ (decodeRune (b :: rest)).1 ∧
      encodeRune (decodeRune (b :: rest)).1 = chunk ∧
      ∀ q, decodeRune (chunk ++ q) = decodeRune (b :: rest) := by
  have hb' : ¬ b.val < 0x80 := by omega
  rcases h : leadInfo b.val with _ | ⟨sz, lo, hi⟩
  · simp [decodeRune, hb', h] at hv
  · rcases leadInfo_some h with ⟨rfl, hr⟩ | ⟨rfl, hr⟩ | ⟨rfl, hr⟩ |
      ⟨rfl, hr⟩ | ⟨rfl, hr⟩ | ⟨rfl, hr⟩ | ⟨rfl, hr⟩
    · exact decodeRune_multibyte_two b rest lo hi h hr hv
    · exact decodeRune_multibyte_three b rest lo hi h (Or.inl hr) hv
    · exact decodeRune_multibyte_three b rest lo hi h (Or.inr (Or.inl hr)) hv
    · exact decodeRune_multibyte_three b rest lo hi h (Or.inr (Or.inr hr)) hv
    · exact decodeRune_multibyte_four b rest lo hi h (Or.inl hr) hv
    · exact decodeRune_multibyte_four b rest lo hi h (Or.inr (Or.inl hr)) hv
    · exact decodeRune_multibyte_four b rest lo hi h (Or.inr (Or.inr hr)) hv

/-- The function `DecodeRune` looks at no more than the first four bytes. -/
theorem decodeRune_take_four (p : List Byte) : decodeRune (p.take 4) = decodeRune p := by
  rcases p with _ | ⟨b, _ | ⟨b1, _ | ⟨b2, _ | ⟨b3, q⟩⟩⟩⟩
  · rfl
  · rfl
  · rfl
  · rfl
  · by_cases hb : b.val < 0x80
    · simp [decodeRune, hb]
    · rcases h : leadInfo b.val with _ | ⟨sz, lo, hi⟩
      · simp [decodeRune, hb, h]
      · have hsz : sz ≤ 4 := by
          rcases leadInfo_some h with ⟨rfl, -⟩ | ⟨rfl, -⟩ | ⟨rfl, -⟩ | ⟨rfl, -⟩ | ⟨rfl, -⟩ |
            ⟨rfl, -⟩ | ⟨rfl, -⟩ <;> decide
        have l1 : ¬ (4 < sz) := by omega
        have l2 : ¬ (q.length + 1 + 1 + 1 + 1 < sz) := by omega
        simp [decodeRune, hb, h, l1, l2]

/-! ## Theorems: string literals -/

/-- One iteration of the loop of `appendString` on valid UTF-8. -/
theorem appendStringLoop_step (n : Nat) (b : Byte) (rest : List Byte)
    (hv : validUTF8Loop (n + 1) (b :: rest) = true) :
    ∃ src enc tail, b :: rest = src ++ tail ∧ EncChunk src enc ∧
      appendStringLoop (n + 1) (b :: rest) = enc ++ appendStringLoop n tail ∧
      validUTF8Loop n tail = true := by
  by_cases hb : b.val < 0x80
  · have hd : decodeRune (b :: rest) = (b.val, 1) := by simp [decodeRune, hb]
    have hne : ¬ (b.val = RuneError) := by unfold RuneError; omega
    have hv' : validUTF8Loop n rest = true := by
      simpa [validUTF8Loop, hd, hne] using hv
    by_cases hs : htmlSafe b.val = true
    · exact ⟨[b], [b], rest, rfl, .safe b hb hs, by simp [appendStringLoop, hb, hs], hv'⟩
    · have hs' : htmlSafe b.val = false := by simpa using hs
      exact ⟨[b], escapeByte b, rest, rfl, .escaped b hb hs',
        by simp [appendStringLoop, hb, hs'], hv'⟩
  · have hb' : 0x80 ≤ b.val := by omega
    have hok : ¬ ((decodeRune (b :: rest)).1 = RuneError ∧ (decodeRune (b :: rest)).2 = 1) := by
      intro hc
      simp [validUTF8Loop, hc] at hv
    obtain ⟨chunk, tail, hsplit, hlen, h2, -, hhi, -, henc, hdec⟩ :=
      decodeRune_multibyte b rest hb' hok
    have hdrop : (b :: rest).drop (decodeRune (b :: rest)).2 = tail := by
      rw [hlen, hsplit]; simp
    have htake : (b :: rest).take (decodeRune (b :: rest)).2 = chunk := by
      rw [hlen, hsplit]; simp
    have hv' : validUTF8Loop n tail = true := by
      rw [← hdrop]
      simpa [validUTF8Loop, hok] using hv
    have h4 : decodeRune ((b :: rest).take 4) = decodeRune (b :: rest) :=
      decodeRune_take_four (b :: rest)
    by_cases hls : (decodeRune (b :: rest)).1 = 0x2028 ∨ (decodeRune (b :: rest)).1 = 0x2029
    · refine ⟨chunk, _, tail, hsplit, .lineSep chunk (decodeRune (b :: rest)).1 hls henc, ?_, hv'⟩
      rw [appendStringLoop, if_neg hb]
      simp only [h4, if_neg hok, if_pos hls, hdrop]
    · refine ⟨chunk, chunk, tail, hsplit,
        .raw chunk (decodeRune (b :: rest)).1 h2 hhi (fun q => ?_) henc, ?_, hv'⟩
      · rw [hdec q, ← hlen]
      · rw [appendStringLoop, if_neg hb]
        simp only [h4, if_neg hok, if_neg hls, hdrop, htake]

theorem isHex_hexDigit (k : Nat) (hk : k < 16) : isHex (hexDigit k) = true := by
  interval_cases k <;> decide

/-- The scanner steps over bytes that are neither a quote, a backslash nor a
control character. -/
theorem scanString_plain (chunk t : List Byte)
    (h : ∀ x ∈ chunk, x ≠ 0x22 ∧ x ≠ 0x5C ∧ 0x20 ≤ x.val) :
    scanString .inString (chunk ++ t)
      = (scanString .inString t).map (fun r => (chunk ++ r.1, r.2)) := by
  induction chunk with
  | nil => simp
  | cons c chunk ih =>
    obtain ⟨h1, h2, h3⟩ := h c (List.mem_cons_self _ _)
    have h3' : ¬ c.val < 0x20 := by omega
    rw [List.cons_append, scanString, if_neg h1, if_neg h2, if_neg h3',
      ih (fun x hx => h x (List.mem_cons_of_mem _ hx))]
    simp [Option.map_map, Function.comp_def]

/-- The scanner steps over a two-character escape. -/
theorem scanString_escape (e : Byte) (t : List Byte)
    (he : e = 0x62 ∨ e = 0x66 ∨ e = 0x6E ∨ e = 0x72 ∨ e = 0x74 ∨ e = 0x5C ∨ e = 0x2F ∨ e = 0x22) :
    scanString .inString (0x5C :: e :: t)
      = (scanString .inString t).map (fun r => (0x5C :: e :: r.1, r.2)) := by
  have h1 : ¬ ((0x5C : Byte) = 0x22) := by decide
  simp only [scanString, if_neg h1, if_pos he, if_true, Option.map_map, Function.comp_def]

/-- The scanner steps over a `\u` escape with four hexadecimal digits. -/
theorem scanString_escapeU (h1 h2 h3 h4 : Byte) (t : List Byte)
    (x1 : isHex h1 = true) (x2 : isHex h2 = true) (x3 : isHex h3 = true)
    (x4 : isHex h4 = true) :
    scanString .inString (0x5C :: 0x75 :: h1 :: h2 :: h3 :: h4 :: t)
      = (scanString .inString t).map
          (fun r => (0x5C :: 0x75 :: h1 :: h2 :: h3 :: h4 :: r.1, r.2)) := by
  have e1 : ¬ ((0x5C : Byte) = 0x22) := by decide
  have e2 : ¬ ((0x75 : Byte) = 0x62 ∨ (0x75 : Byte) = 0x66 ∨ (0x75 : Byte) = 0x6E ∨
      (0x75 : Byte) = 0x72 ∨ (0x75 : Byte) = 0x74 ∨ (0x75 : Byte) = 0x5C ∨
      (0x75 : Byte) = 0x2F ∨ (0x75 : Byte) = 0x22) := by decide
  simp only [scanString, if_neg e1, if_neg e2, x1, x2, x3, x4, if_true, Option.map_map,
    Function.comp_def]
  simp
theorem htmlSafe_true {n : Nat} (h : htmlSafe n = true) :
    0x20 ≤ n ∧ n < 0x80 ∧ n ≠ 0x22 ∧ n ≠ 0x5C := by
  simp only [htmlSafe, decide_eq_true_eq] at h
  omega

theorem byte_ne_of_val_ne {b c : Byte} (h : b.val ≠ c.val) : b ≠ c :=
  fun e => h (by rw [e])

theorem hexStep_hexDigit (r k : Nat) (hk : k < 16) : hexStep r (hexDigit k) = some (r * 16 + k) := by
  interval_cases k <;> rfl

theorem getu4_hexDigits (a b c d : Nat) (t : List Byte)
    (ha : a < 16) (hb : b < 16) (hc : c < 16) (hd : d < 16) :
    getu4 (0x5C :: 0x75 :: hexDigit a :: hexDigit b :: hexDigit c :: hexDigit d :: t)
      = some (((a * 16 + b) * 16 + c) * 16 + d) := by
  have hlen : ¬ ((0x5C :: 0x75 :: hexDigit a :: hexDigit b :: hexDigit c :: hexDigit d :: t).length
      < 6 ∨ (0x5C : Byte) ≠ 0x5C ∨ (0x75 : Byte) ≠ 0x75) := by
    simp
  unfold getu4
  simp only [List.getD_cons_zero, List.getD_cons_succ]
  rw [if_neg hlen]
  simp [List.foldlM, hexStep_hexDigit, ha, hb, hc, hd]

theorem ascii_u00 : ascii "\\u00" = [0x5C, 0x75, hexDigit 0, hexDigit 0] := by decide

theorem ascii_u202 : ascii "\\u202" = [0x5C, 0x75, hexDigit 2, hexDigit 0, hexDigit 2] := by
  decide

/-- The bytes an iteration of `appendString` appends are not empty. -/
theorem EncChunk.enc_ne_nil {src enc : List Byte} (h : EncChunk src enc) : 1 ≤ enc.length := by
  cases h with
  | safe b h1 h2 => simp
  | escaped b h1 h2 =>
    unfold escapeByte
    split_ifs <;> simp [ascii]
  | raw chunk r hlen hhi hdec henc => omega
  | lineSep chunk r hr henc => simp

/-- The scanner steps over the bytes an iteration of `appendString` appends. -/
theorem scanString_chunk {src enc : List Byte} (h : EncChunk src enc) (t : List Byte) :
    scanString .inString (enc ++ t)
      = (scanString .inString t).map (fun r => (enc ++ r.1, r.2)) := by
  cases h with
  | safe b h1 h2 =>
    obtain ⟨s1, -, s3, s4⟩ := htmlSafe_true h2
    apply scanString_plain
    intro x hx
    rw [List.mem_singleton] at hx
    subst hx
    exact ⟨byte_ne_of_val_ne s3, byte_ne_of_val_ne s4, s1⟩
  | escaped b h1 h2 =>
    unfold escapeByte
    split_ifs with c1 c2 c3 c4 c5 c6
    · exact scanString_escape b t (by rcases c1 with rfl | rfl <;> decide)
    · exact scanString_escape 0x62 t (by decide)
    · exact scanString_escape 0x66 t (by decide)
    · exact scanString_escape 0x6E t (by decide)
    · exact scanString_escape 0x72 t (by decide)
    · exact scanString_escape 0x74 t (by decide)
    · rw [ascii_u00]
      exact scanString_escapeU _ _ _ _ t (by decide) (by decide)
        (isHex_hexDigit _ (by omega)) (isHex_hexDigit _ (by omega))
  | raw chunk r hlen hhi hdec henc =>
    apply scanString_plain
    intro x hx
    have := hhi x hx
    exact ⟨byte_ne_of_val_ne (by show x.val ≠ 0x22; omega),
      byte_ne_of_val_ne (by show x.val ≠ 0x5C; omega), by omega⟩
  | lineSep chunk r hr henc =>
    rw [ascii_u202]
    exact scanString_escapeU _ _ _ _ t (by decide) (by decide) (by decide)
      (isHex_hexDigit _ (by omega))
theorem encodeRune_ascii (b : Byte) (h : b.val < 0x80) : encodeRune b.val = [b] := by
  unfold encodeRune
  rw [if_pos (by omega), byte_of_val]

/-- Unfolding of one iteration of the second loop of `unquoteBytes` on a byte
that is not a backslash. -/
theorem unquoteLoop_cons_ne (m : Nat) (c : Byte) (rest : List Byte) (h : c ≠ 0x5C) :
    unquoteLoop (m + 1) (c :: rest) =
      if c = 0x22 ∨ c.val < 0x20 then none
      else if c.val < 0x80 then (unquoteLoop m rest).map (fun t => c :: t)
      else
        (unquoteLoop m ((c :: rest).drop (decodeRune (c :: rest)).2)).map
          (fun t => encodeRune (decodeRune (c :: rest)).1 ++ t) := by
  show (if c = 0x5C then _ else _) = _
  rw [if_neg h]

/-- Unfolding of one iteration of the second loop of `unquoteBytes` on a
backslash. -/
theorem unquoteLoop_cons_backslash (m : Nat) (e : Byte) (rest2 : List Byte) :
    unquoteLoop (m + 1) (0x5C :: e :: rest2) =
      if e = 0x22 ∨ e = 0x5C ∨ e = 0x2F ∨ e = 0x27 then
        (unquoteLoop m rest2).map (fun t => e :: t)
      else if e = 0x62 then (unquoteLoop m rest2).map (fun t => 0x08 :: t)
      else if e = 0x66 then (unquoteLoop m rest2).map (fun t => 0x0C :: t)
      else if e = 0x6E then (unquoteLoop m rest2).map (fun t => 0x0A :: t)
      else if e = 0x72 then (unquoteLoop m rest2).map (fun t => 0x0D :: t)
      else if e = 0x74 then (unquoteLoop m rest2).map (fun t => 0x09 :: t)
      else if e = 0x75 then
        match getu4 (0x5C :: e :: rest2) with
        | none => none
        | some rr =>
          if isSurrogate rr then
            if utf16DecodeRune rr (getu4 ((0x5C :: e :: rest2).drop 6)) ≠ 0xFFFD then
              (unquoteLoop m (((0x5C :: e :: rest2).drop 6).drop 6)).map (fun t =>
                encodeRune (utf16DecodeRune rr (getu4 ((0x5C :: e :: rest2).drop 6))) ++ t)
            else (unquoteLoop m ((0x5C :: e :: rest2).drop 6)).map
              (fun t => encodeRune 0xFFFD ++ t)
          else (unquoteLoop m ((0x5C :: e :: rest2).drop 6)).map (fun t => encodeRune rr ++ t)
      else none := by
  rfl

/-- Unfolding of one iteration of the first loop of `unquoteBytes`. -/
theorem unquoteFastLoop_cons (m : Nat) (c : Byte) (rest : List Byte) :
    unquoteFastLoop (m + 1) (c :: rest) =
      if c = 0x5C ∨ c = 0x22 ∨ c.val < 0x20 then 0
      else if c.val < 0x80 then 1 + unquoteFastLoop m rest
      else
        if (decodeRune (c :: rest)).1 = RuneError ∧ (decodeRune (c :: rest)).2 = 1 then 0
        else (decodeRune (c :: rest)).2
          + unquoteFastLoop m ((c :: rest).drop (decodeRune (c :: rest)).2) := by
  rfl

theorem unquoteFastLoop_cons_backslash (m : Nat) (l t : List Byte) :
    unquoteFastLoop (m + 1) ((0x5C :: l) ++ t) = 0 := by
  rw [List.cons_append, unquoteFastLoop_cons, if_pos (Or.inl rfl)]

/-- The second loop of `unquoteBytes` on a two-character escape that stands
for the byte `v`. -/
theorem unquoteLoop_escape (m : Nat) (e v : Byte) (t : List Byte)
    (he : ((e = 0x22 ∨ e = 0x5C ∨ e = 0x2F ∨ e = 0x27) ∧ v = e) ∨ (e = 0x62 ∧ v = 0x08) ∨
      (e = 0x66 ∧ v = 0x0C) ∨ (e = 0x6E ∧ v = 0x0A) ∨ (e = 0x72 ∧ v = 0x0D) ∨
      (e = 0x74 ∧ v = 0x09)) :
    unquoteLoop (m + 1) (0x5C :: e :: t) = (unquoteLoop m t).map (fun s => v :: s) := by
  rcases he with ⟨he, rfl⟩ | ⟨rfl, rfl⟩ | ⟨rfl, rfl⟩ | ⟨rfl, rfl⟩ | ⟨rfl, rfl⟩ | ⟨rfl, rfl⟩
  · rw [unquoteLoop_cons_backslash, if_pos he]
  all_goals rfl

/-- The second loop of `unquoteBytes` on a `\u` escape of a rune that is not a
surrogate. -/
theorem unquoteLoop_escapeU (m : Nat) (a b c d : Nat) (t : List Byte)
    (ha : a < 16) (hb : b < 16) (hc : c < 16) (hd : d < 16)
    (hs : isSurrogate (((a * 16 + b) * 16 + c) * 16 + d) = false) :
    unquoteLoop (m + 1)
        (0x5C :: 0x75 :: hexDigit a :: hexDigit b :: hexDigit c :: hexDigit d :: t)
      = (unquoteLoop m t).map (fun s => encodeRune (((a * 16 + b) * 16 + c) * 16 + d) ++ s) := by
  have e1 : ¬ ((0x75 : Byte) = 0x22 ∨ (0x75 : Byte) = 0x5C ∨ (0x75 : Byte) = 0x2F ∨
      (0x75 : Byte) = 0x27) := by decide
  have e2 : ¬ ((0x75 : Byte) = 0x62) := by decide
  have e3 : ¬ ((0x75 : Byte) = 0x66) := by decide
  have e4 : ¬ ((0x75 : Byte) = 0x6E) := by decide
  have e5 : ¬ ((0x75 : Byte) = 0x72) := by decide
  have e6 : ¬ ((0x75 : Byte) = 0x74) := by decide
  rw [unquoteLoop_cons_backslash, if_neg e1, if_neg e2, if_neg e3, if_neg e4, if_neg e5,
    if_neg e6, if_pos rfl, getu4_hexDigits a b c d t ha hb hc hd]
  simp only [hs, Bool.false_eq_true, if_false, List.drop_succ_cons, List.drop_zero]

/-- The second loop of `unquoteBytes` reads back, in one iteration, the bytes
an iteration of `appendString` appends. -/
theorem unquoteLoop_chunk {src enc : List Byte} (h : EncChunk src enc) (m : Nat)
    (t : List Byte) :
    unquoteLoop (m + 1) (enc ++ t) = (unquoteLoop m t).map (fun s => src ++ s) := by
  cases h with
  | safe b h1 h2 =>
    obtain ⟨s1, -, s3, s4⟩ := htmlSafe_true h2
    have n1 : ¬ (b = 0x5C) := byte_ne_of_val_ne s4
    have n2 : ¬ (b = 0x22 ∨ b.val < 0x20) := by
      intro hc
      rcases hc with hc | hc
      · exact byte_ne_of_val_ne s3 hc
      · omega
    rw [List.singleton_append, unquoteLoop_cons_ne m b t n1, if_neg n2, if_pos h1]
    rfl
  | escaped b h1 h2 =>
    unfold escapeByte
    split_ifs with c1 c2 c3 c4 c5 c6
    · exact unquoteLoop_escape m b b t (Or.inl ⟨by rcases c1 with rfl | rfl <;> decide, rfl⟩)
    · exact unquoteLoop_escape m 0x62 b t (Or.inr (Or.inl ⟨rfl, c2⟩))
    · exact unquoteLoop_escape m 0x66 b t (Or.inr (Or.inr (Or.inl ⟨rfl, c3⟩)))
    · exact unquoteLoop_escape m 0x6E b t (Or.inr (Or.inr (Or.inr (Or.inl ⟨rfl, c4⟩))))
    · exact unquoteLoop_escape m 0x72 b t (Or.inr (Or.inr (Or.inr (Or.inr (Or.inl ⟨rfl, c5⟩)))))
    · exact unquoteLoop_escape m 0x74 b t (Or.inr (Or.inr (Or.inr (Or.inr (Or.inr ⟨rfl, c6⟩)))))
    · rw [ascii_u00]
      have hval : ((0 * 16 + 0) * 16 + b.val / 16) * 16 + b.val % 16 = b.val := by omega
      have := unquoteLoop_escapeU m 0 0 (b.val / 16) (b.val % 16) t (by decide) (by decide)
        (by omega) (by omega) (by rw [hval]; simp [isSurrogate]; omega)
      rw [hval, encodeRune_ascii b h1] at this
      exact this
  | raw chunk r hlen hhi hdec henc =>
    rcases src with _ | ⟨c, chunk⟩
    · simp at hlen
    · have hc := hhi c (List.mem_cons_self _ _)
      have n1 : ¬ (c = 0x5C) := byte_ne_of_val_ne (by show c.val ≠ 0x5C; omega)
      have n2 : ¬ (c = 0x22 ∨ c.val < 0x20) := by
        intro h
        rcases h with h | h
        · exact byte_ne_of_val_ne (by show c.val ≠ 0x22; omega) h
        · omega
      have n3 : ¬ (c.val < 0x80) := by omega
      have hd := hdec t
      rw [List.cons_append] at hd ⊢
      rw [unquoteLoop_cons_ne m c _ n1, if_neg n2, if_neg n3, hd, henc]
      show Option.map _ (unquoteLoop m (List.drop (c :: chunk).length ((c :: chunk) ++ t))) = _
      rw [List.drop_left]
  | lineSep chunk r hr henc =>
    rw [ascii_u202]
    have hval : ((2 * 16 + 0) * 16 + 2) * 16 + r % 16 = r := by omega
    have := unquoteLoop_escapeU m 2 0 2 (r % 16) t (by decide) (by decide) (by decide)
      (by omega) (by rw [hval]; simp [isSurrogate]; omega)
    rw [hval, henc] at this
    exact this

/-- The first loop of `unquoteBytes` on the bytes an iteration of
`appendString` appends: it stops at an escape and steps over copied bytes. -/
theorem unquoteFastLoop_chunk {src enc : List Byte} (h : EncChunk src enc) :
    (∀ m t, unquoteFastLoop (m + 1) (enc ++ t) = 0) ∨
    (enc = src ∧ ∀ m t, unquoteFastLoop (m + 1) (enc ++ t) = enc.length + unquoteFastLoop m t) := by
  cases h with
  | safe b h1 h2 =>
    right
    refine ⟨rfl, fun m t => ?_⟩
    obtain ⟨s1, -, s3, s4⟩ := htmlSafe_true h2
    have n1 : ¬ (b = 0x5C ∨ b = 0x22 ∨ b.val < 0x20) := by
      intro hc
      rcases hc with hc | hc | hc
      · exact byte_ne_of_val_ne s4 hc
      · exact byte_ne_of_val_ne s3 hc
      · omega
    rw [List.singleton_append, unquoteFastLoop_cons, if_neg n1, if_pos h1, List.length_singleton]
  | escaped b h1 h2 =>
    left
    intro m t
    have hhead : ∃ l, escapeByte b = 0x5C :: l := by
      unfold escapeByte
      split_ifs <;> exact ⟨_, rfl⟩
    obtain ⟨l, hl⟩ := hhead
    rw [hl, List.cons_append, unquoteFastLoop_cons, if_pos (Or.inl rfl)]
  | raw chunk r hlen hhi hdec henc =>
    right
    refine ⟨rfl, fun m t => ?_⟩
    rcases src with _ | ⟨c, chunk⟩
    · simp at hlen
    · have hc := hhi c (List.mem_cons_self _ _)
      have n1 : ¬ (c = 0x5C ∨ c = 0x22 ∨ c.val < 0x20) := by
        intro h
        rcases h with h | h | h
        · exact byte_ne_of_val_ne (by show c.val ≠ 0x5C; omega) h
        · exact byte_ne_of_val_ne (by show c.val ≠ 0x22; omega) h
        · omega
      have n3 : ¬ (c.val < 0x80) := by omega
      have hd := hdec t
      have n4 : ¬ (r = RuneError ∧ (c :: chunk).length = 1) := by
        intro h
        have := h.2
        omega
      rw [List.cons_append] at hd ⊢
      rw [unquoteFastLoop_cons, if_neg n1, if_neg n3, hd]
      simp only [if_neg n4]
      show _ + unquoteFastLoop m (List.drop (c :: chunk).length ((c :: chunk) ++ t)) = _
      rw [List.drop_left]
  | lineSep chunk r hr henc =>
    left
    intro m t
    rw [ascii_u202]
    exact unquoteFastLoop_cons_backslash m _ t
theorem appendStringLoop_nil (n : Nat) : appendStringLoop n [] = [] := by
  cases n <;> rfl

theorem unquoteLoop_nil (m : Nat) : unquoteLoop m [] = some [] := by
  cases m <;> rfl

theorem unquoteFastLoop_nil (m : Nat) : unquoteFastLoop m [] = 0 := by
  cases m <;> rfl

theorem validUTF8Loop_zero_cons (b : Byte) (rest : List Byte) :
    validUTF8Loop 0 (b :: rest) = false := rfl

/-- The scanner reads the body `appendString` writes for valid UTF-8 up to
the closing quote. -/
theorem scanString_appendStringLoop (n : Nat) : ∀ (s t : List Byte),
    validUTF8Loop n s = true →
    scanString .inString (appendStringLoop n s ++ 0x22 :: t) = some (appendStringLoop n s, t) := by
  induction n with
  | zero =>
    intro s t hv
    rcases s with _ | ⟨b, rest⟩
    · rfl
    · rw [validUTF8Loop_zero_cons] at hv
      exact Bool.noConfusion hv
  | succ n ih =>
    intro s t hv
    rcases s with _ | ⟨b, rest⟩
    · rfl
    · obtain ⟨src, enc, tail, -, hchunk, henc, hv'⟩ := appendStringLoop_step n b rest hv
      rw [henc, List.append_assoc, scanString_chunk hchunk, ih tail t hv']
      rfl

/-- The second loop of `unquoteBytes` gives back the string from the body
`appendString` writes for valid UTF-8. -/
theorem unquoteLoop_appendStringLoop (n : Nat) : ∀ (s : List Byte) (m : Nat),
    validUTF8Loop n s = true → (appendStringLoop n s).length ≤ m →
    unquoteLoop m (appendStringLoop n s) = some s := by
  induction n with
  | zero =>
    intro s m hv _
    rcases s with _ | ⟨b, rest⟩
    · exact unquoteLoop_nil m
    · rw [validUTF8Loop_zero_cons] at hv
      exact Bool.noConfusion hv
  | succ n ih =>
    intro s m hv hm
    rcases s with _ | ⟨b, rest⟩
    · exact unquoteLoop_nil m
    · obtain ⟨src, enc, tail, hsplit, hchunk, henc, hv'⟩ := appendStringLoop_step n b rest hv
      have hpos := hchunk.enc_ne_nil
      rw [henc, List.length_append] at hm
      obtain ⟨m', rfl⟩ : ∃ m', m = m' + 1 := ⟨m - 1, by omega⟩
      rw [henc, unquoteLoop_chunk hchunk, ih tail m' hv' (by omega), hsplit]
      rfl

/-- The two loops of `unquoteBytes` together give back the string from the
body `appendString` writes for valid UTF-8. -/
theorem unquoteFastLoop_appendStringLoop (n : Nat) : ∀ (s : List Byte) (m M : Nat),
    validUTF8Loop n s = true → (appendStringLoop n s).length ≤ m →
    (appendStringLoop n s).length ≤ M →
    (if unquoteFastLoop m (appendStringLoop n s) = (appendStringLoop n s).length then
        some (appendStringLoop n s)
      else
        (unquoteLoop M ((appendStringLoop n s).drop
          (unquoteFastLoop m (appendStringLoop n s)))).map
          (fun t => (appendStringLoop n s).take (unquoteFastLoop m (appendStringLoop n s)) ++ t))
      = some s := by
  induction n with
  | zero =>
    intro s m M hv _ _
    rcases s with _ | ⟨b, rest⟩
    · simp [appendStringLoop_nil, unquoteFastLoop_nil]
    · rw [validUTF8Loop_zero_cons] at hv
      exact Bool.noConfusion hv
  | succ n ih =>
    intro s m M hv hm hM
    rcases s with _ | ⟨b, rest⟩
    · simp [appendStringLoop_nil, unquoteFastLoop_nil]
    · obtain ⟨src, enc, tail, hsplit, hchunk, henc, hv'⟩ := appendStringLoop_step n b rest hv
      have hpos := hchunk.enc_ne_nil
      have hslow := unquoteLoop_appendStringLoop (n + 1) (b :: rest) M hv hM
      rw [henc] at hm hM hslow ⊢
      rw [List.length_append] at hm hM
      obtain ⟨m', rfl⟩ : ∃ m', m = m' + 1 := ⟨m - 1, by omega⟩
      rcases unquoteFastLoop_chunk hchunk with h0 | ⟨heq, hstep⟩
      · rw [h0, if_neg (by rw [List.length_append]; omega), List.drop_zero, List.take_zero, hslow]
        rfl
      · subst heq
        have hrec := ih tail m' M hv' (by omega) (by omega)
        rw [hstep, hsplit]
        by_cases hr : unquoteFastLoop m' (appendStringLoop n tail) = (appendStringLoop n tail).length
        · rw [if_pos hr] at hrec
          rw [if_pos (by rw [List.length_append, hr])]
          rw [Option.some.injEq] at hrec
          rw [hrec]
        · rw [if_neg hr] at hrec
          rw [if_neg (by rw [List.length_append]; omega)]
          rw [List.drop_append, List.take_append]
          cases hq : unquoteLoop M (List.drop (unquoteFastLoop m' (appendStringLoop n tail))
              (appendStringLoop n tail)) with
          | none => rw [hq] at hrec; exact Option.noConfusion hrec
          | some q =>
            rw [hq] at hrec
            simp only [Option.map_some', Option.some.injEq] at hrec ⊢
            rw [List.append_assoc, hrec]

/-- The function `unquoteBytes` gives back a valid UTF-8 string from the body
of the literal `appendString` writes for it. -/
theorem unquoteBytes_appendStringLoop (s : GoString) (hv : validUTF8 s = true) :
    unquoteBytes (appendStringLoop s.length s) = some s := by
  unfold unquoteBytes
  exact unquoteFastLoop_appendStringLoop s.length s _ _ hv (le_refl _) (le_refl _)

/-! ## Theorems: number literals -/

theorem isDigit_byte (k : Nat) (hk : k < 10) : isDigit (byte (0x30 + k)) = true := by
  interval_cases k <;> rfl

theorem digit_val (k : Nat) (hk : k < 10) : (byte (0x30 + k)).val - 0x30 = k := by
  rw [byte_val]
  omega

/-- The digits `formatUintLoop` writes: decimal digits, at least one, whose
value is `n`. -/
theorem formatUintLoop_digits (fuel : Nat) : ∀ n, n < fuel →
    (∀ x ∈ formatUintLoop fuel n, isDigit x = true) ∧
    formatUintLoop fuel n ≠ [] ∧
    (formatUintLoop fuel n).foldl (fun acc c => acc * 10 + (c.val - 0x30)) 0 = n := by
  induction fuel with
  | zero => intro n hn; omega
  | succ fuel ih =>
    intro n hn
    by_cases h10 : n < 10
    · have e : formatUintLoop (fuel + 1) n = [byte (0x30 + n)] := by
        simp [formatUintLoop, h10]
      rw [e]
      refine ⟨?_, by simp, ?_⟩
      · intro x hx
        rw [List.mem_singleton] at hx
        rw [hx]
        exact isDigit_byte n h10
      · simp only [List.foldl_cons, List.foldl_nil]
        rw [digit_val n h10]
        omega
    · have e : formatUintLoop (fuel + 1) n
          = formatUintLoop fuel (n / 10) ++ [byte (0x30 + n % 10)] := by
        simp [formatUintLoop, h10]
      obtain ⟨h1, -, h3⟩ := ih (n / 10) (by omega)
      rw [e]
      refine ⟨?_, by simp, ?_⟩
      · intro x hx
        rw [List.mem_append, List.mem_singleton] at hx
        rcases hx with hx | hx
        · exact h1 x hx
        · rw [hx]
          exact isDigit_byte _ (Nat.mod_lt _ (by decide))
      · rw [List.foldl_append, h3]
        simp only [List.foldl_cons, List.foldl_nil]
        rw [digit_val _ (Nat.mod_lt _ (by decide))]
        omega

/-- The digits `formatUintLoop` writes for a positive number do not start
with `0`. -/
theorem formatUintLoop_head (fuel : Nat) : ∀ n, 0 < n → n < fuel →
    ∃ h tl, formatUintLoop fuel n = h :: tl ∧ h ≠ 0x30 := by
  induction fuel with
  | zero => intro n _ hn; omega
  | succ fuel ih =>
    intro n hpos hn
    by_cases h10 : n < 10
    · refine ⟨byte (0x30 + n), [], by simp [formatUintLoop, h10], ?_⟩
      apply byte_ne_of_val_ne
      rw [byte_val]
      show (0x30 + n) % 256 ≠ 0x30
      omega
    · obtain ⟨h, tl, e, hne⟩ := ih (n / 10) (by omega) (by omega)
      exact ⟨h, tl ++ [byte (0x30 + n % 10)], by simp [formatUintLoop, h10, e], hne⟩

theorem formatUintLoop_zero (fuel : Nat) : formatUintLoop (fuel + 1) 0 = [0x30] := rfl

theorem takeWhile_digits (ds rest : List Byte) (c : Byte) (h : ∀ x ∈ ds, isDigit x = true)
    (hc : isDigit c = false) :
    (ds ++ c :: rest).takeWhile isDigit = ds ∧ (ds ++ c :: rest).dropWhile isDigit = c :: rest := by
  induction ds with
  | nil => simp [List.takeWhile, List.dropWhile, hc]
  | cons d ds ih =>
    have hd := h d (List.mem_cons_self _ _)
    obtain ⟨i1, i2⟩ := ih (fun x hx => h x (List.mem_cons_of_mem _ hx))
    simp [List.takeWhile, List.dropWhile, hd, i1, i2]

theorem isDigit_ne_minus {h : Byte} (hd : isDigit h = true) : (h = 0x2D) = False := by
  simp only [isDigit, decide_eq_true_eq] at hd
  simp only [eq_iff_iff, iff_false]
  intro e
  rw [e] at hd
  revert hd
  decide

/-- The scanner on the digits of a number without leading zero, followed by a
byte that does not continue a number. -/
theorem scanNumber_digits (sign : List Byte) (hsign : sign = [] ∨ sign = [0x2D])
    (h : Byte) (tl rest : List Byte) (c : Byte)
    (hh : isDigit h = true) (htl : ∀ x ∈ tl, isDigit x = true) (hzero : h = 0x30 → tl = [])
    (hc : isDigit c = false) (hc1 : c ≠ 0x2E) (hc2 : ¬ (c = 0x65 ∨ c = 0x45)) :
    scanNumber (sign ++ h :: tl ++ c :: rest) = some (sign ++ h :: tl, c :: rest) := by
  have hint : scanIntPart (sign ++ h :: tl ++ c :: rest) = some (sign ++ h :: tl, c :: rest) := by
    have hopt : optByte (fun x => decide (x = 0x2D)) (sign ++ h :: tl ++ c :: rest)
        = (sign, h :: tl ++ c :: rest) := by
      rcases hsign with rfl | rfl
      · simp [optByte, isDigit_ne_minus hh]
      · simp [optByte]
    unfold scanIntPart
    simp only [hopt]
    by_cases h0 : h = 0x30
    · have := hzero h0
      subst this
      simp [h0]
    · obtain ⟨i1, i2⟩ := takeWhile_digits tl rest c htl hc
      simp [h0, hh, i1, i2]
  unfold scanNumber
  simp only [hint]
  simp [scanFraction, scanExponent, hc1, hc2]

/-- The shape of the decimal representation `formatInt` writes: an optional
minus sign and digits without leading zero whose value is the magnitude. -/
theorem formatInt_shape (v : Int) :
    ∃ sign h tl, formatInt v = sign ++ h :: tl ∧
      ((sign = [] ∧ 0 ≤ v) ∨ (sign = [0x2D] ∧ v < 0)) ∧
      isDigit h = true ∧ (∀ x ∈ tl, isDigit x = true) ∧ (h = 0x30 → tl = []) ∧
      (h :: tl).foldl (fun acc c => acc * 10 + (c.val - 0x30)) 0 = v.natAbs := by
  obtain ⟨d1, d2, d3⟩ := formatUintLoop_digits (v.natAbs + 1) v.natAbs (by omega)
  have hshape : ∃ h tl, formatUintLoop (v.natAbs + 1) v.natAbs = h :: tl ∧ (h = 0x30 → tl = []) := by
    rcases Nat.eq_zero_or_pos v.natAbs with h0 | hpos
    · rw [h0]
      exact ⟨0x30, [], rfl, fun _ => rfl⟩
    · obtain ⟨h, tl, e, hne⟩ := formatUintLoop_head (v.natAbs + 1) v.natAbs hpos (by omega)
      exact ⟨h, tl, e, fun h0 => absurd h0 hne⟩
  obtain ⟨h, tl, e, hz⟩ := hshape
  rw [e] at d1 d3
  by_cases hneg : v < 0
  · refine ⟨[0x2D], h, tl, ?_, Or.inr ⟨rfl, hneg⟩, d1 h (List.mem_cons_self _ _),
      fun x hx => d1 x (List.mem_cons_of_mem _ hx), hz, d3⟩
    simp [formatInt, hneg, e]
  · refine ⟨[], h, tl, ?_, Or.inl ⟨rfl, by omega⟩, d1 h (List.mem_cons_self _ _),
      fun x hx => d1 x (List.mem_cons_of_mem _ hx), hz, d3⟩
    simp [formatInt, hneg, e]

/-- The scanner reads the number `formatInt` writes up to a following comma. -/
theorem scanNumber_formatInt (v : Int) (rest : List Byte) :
    scanNumber (formatInt v ++ 0x2C :: rest) = some (formatInt v, 0x2C :: rest) := by
  obtain ⟨sign, h, tl, e, hs, hh, htl, hz, -⟩ := formatInt_shape v
  rw [e]
  have hsign : sign = [] ∨ sign = [0x2D] := by
    rcases hs with ⟨hs, -⟩ | ⟨hs, -⟩
    · exact Or.inl hs
    · exact Or.inr hs
  exact scanNumber_digits sign hsign h tl rest 0x2C hh htl hz (by decide) (by decide) (by decide)

/-- The call `strconv.ParseInt` gives back an `int64` from the decimal
representation `formatInt` writes. -/
theorem parseInt64_formatInt (v : Int) (hv : isInt64 v) : parseInt64 (formatInt v) = some v := by
  obtain ⟨sign, h, tl, e, hs, hh, htl, -, hval⟩ := formatInt_shape v
  have hall : (h :: tl).all isDigit = true := by
    rw [List.all_eq_true]
    intro x hx
    rcases List.mem_cons.mp hx with rfl | hx
    · exact hh
    · exact htl x hx
  rw [e]
  rcases hs with ⟨rfl, hpos⟩ | ⟨rfl, hneg⟩
  · have hopt : optByte (fun x => decide (x = 0x2D)) ([] ++ h :: tl) = ([], h :: tl) := by
      simp [optByte, isDigit_ne_minus hh]
    unfold parseInt64
    simp only [hopt, hall, hval]
    simp [hv, abs_of_nonneg hpos]
  · have hopt : optByte (fun x => decide (x = 0x2D)) ([0x2D] ++ h :: tl) = ([0x2D], h :: tl) := by
      simp [optByte]
    unfold parseInt64
    simp only [hopt, hall, hval]
    simp [hv, abs_of_neg hneg]

/-! ## Theorems: round trip of an `Event` -/

theorem skipSpace_cons (c : Byte) (rest : List Byte) (h : isSpace c = false) :
    skipSpace (c :: rest) = c :: rest := by
  simp [skipSpace, h]

/-- The scanner reads a key made of plain bytes up to its closing quote. -/
theorem scanString_key (key t : List Byte)
    (h : ∀ x ∈ key, x ≠ 0x22 ∧ x ≠ 0x5C ∧ 0x20 ≤ x.val) :
    scanString .inString (key ++ 0x22 :: t) = some (key, t) := by
  rw [scanString_plain key _ h]
  simp [scanString]

/-- The parser on an object member with a string value, followed by a comma. -/
theorem parseMembers_string_comma (fuel depth : Nat) (key body r4 : List Byte)
    (hkey : ∀ x ∈ key, x ≠ 0x22 ∧ x ≠ 0x5C ∧ 0x20 ≤ x.val)
    (hbody : ∀ t, scanString .inString (body ++ 0x22 :: t) = some (body, t)) :
    parseMembers (fuel + 2) depth
        (0x22 :: (key ++ 0x22 :: 0x3A :: 0x22 :: (body ++ 0x22 :: 0x2C :: r4)))
      = (parseMembers (fuel + 1) depth r4).map (fun r => ((key, .string body) :: r.1, r.2)) := by
  rw [parseMembers, skipSpace_cons _ _ (by decide)]
  simp only [ne_eq, not_true_eq_false, if_false, scanString_key key _ hkey,
    skipSpace_cons (0x3A : Byte) _ (by decide)]
  rw [parseValue, skipSpace_cons _ _ (by decide)]
  simp only [hbody]
  simp [skipSpace_cons (0x2C : Byte) _ (by decide)]

/-- The parser on the last object member, with a string value, followed by
the closing brace. -/
theorem parseMembers_string_close (fuel depth : Nat) (key body r4 : List Byte)
    (hkey : ∀ x ∈ key, x ≠ 0x22 ∧ x ≠ 0x5C ∧ 0x20 ≤ x.val)
    (hbody : ∀ t, scanString .inString (body ++ 0x22 :: t) = some (body, t)) :
    parseMembers (fuel + 2) depth
        (0x22 :: (key ++ 0x22 :: 0x3A :: 0x22 :: (body ++ 0x22 :: 0x7D :: r4)))
      = some ([(key, .string body)], r4) := by
  rw [parseMembers, skipSpace_cons _ _ (by decide)]
  simp only [ne_eq, not_true_eq_false, if_false, scanString_key key _ hkey,
    skipSpace_cons (0x3A : Byte) _ (by decide)]
  rw [parseValue, skipSpace_cons _ _ (by decide)]
  simp only [hbody]
  simp [skipSpace_cons (0x7D : Byte) _ (by decide)]

theorem isDigit_facts {c : Byte} (h : c = 0x2D ∨ isDigit c = true) :
    isSpace c = false ∧ c ≠ 0x7B ∧ c ≠ 0x5B ∧ c ≠ 0x22 := by
  rcases h with rfl | h
  · decide
  · simp only [isDigit, decide_eq_true_eq] at h
    refine ⟨?_, byte_ne_of_val_ne (by show c.val ≠ 0x7B; omega),
      byte_ne_of_val_ne (by show c.val ≠ 0x5B; omega),
      byte_ne_of_val_ne (by show c.val ≠ 0x22; omega)⟩
    have n1 : c ≠ 0x20 := byte_ne_of_val_ne (by show c.val ≠ 0x20; omega)
    have n2 : c ≠ 0x09 := byte_ne_of_val_ne (by show c.val ≠ 0x09; omega)
    have n3 : c ≠ 0x0D := byte_ne_of_val_ne (by show c.val ≠ 0x0D; omega)
    have n4 : c ≠ 0x0A := byte_ne_of_val_ne (by show c.val ≠ 0x0A; omega)
    simp [isSpace, n1, n2, n3, n4]

/-- The parser on a value that starts with a minus sign or a digit. -/
theorem parseValue_number (fuel depth : Nat) (c : Byte) (rest : List Byte)
    (h : c = 0x2D ∨ isDigit c = true) :
    parseValue (fuel + 1) depth (c :: rest)
      = (scanNumber (c :: rest)).map (fun r => (.number r.1, r.2)) := by
  obtain ⟨h1, h2, h3, h4⟩ := isDigit_facts h
  rw [parseValue, skipSpace_cons _ _ h1]
  simp only [if_neg h2, if_neg h3, if_neg h4, if_pos h]

/-- The parser on an object member whose value is the number `formatInt`
writes, followed by a comma. -/
theorem parseMembers_number_comma (fuel depth : Nat) (key r4 : List Byte) (v : Int)
    (hkey : ∀ x ∈ key, x ≠ 0x22 ∧ x ≠ 0x5C ∧ 0x20 ≤ x.val) :
    parseMembers (fuel + 2) depth
        (0x22 :: (key ++ 0x22 :: 0x3A :: (formatInt v ++ 0x2C :: r4)))
      = (parseMembers (fuel + 1) depth r4).map
          (fun r => ((key, .number (formatInt v)) :: r.1, r.2)) := by
  have hnum : parseValue (fuel + 1) depth (formatInt v ++ 0x2C :: r4)
      = some (.number (formatInt v), 0x2C :: r4) := by
    have hscan := scanNumber_formatInt v r4
    obtain ⟨sign, h, tl, e, hs, hh, -, -, -⟩ := formatInt_shape v
    have hhead : ∃ c l, formatInt v = c :: l ∧ (c = 0x2D ∨ isDigit c = true) := by
      rcases hs with ⟨rfl, -⟩ | ⟨rfl, -⟩
      · exact ⟨h, tl, e, Or.inr hh⟩
      · exact ⟨0x2D, h :: tl, e, Or.inl rfl⟩
    obtain ⟨c, l, e', hc⟩ := hhead
    rw [e'] at hscan ⊢
    rw [List.cons_append] at hscan ⊢
    rw [parseValue_number fuel depth c _ hc, hscan]
    rfl
  rw [parseMembers, skipSpace_cons _ _ (by decide)]
  simp only [ne_eq, not_true_eq_false, if_false, scanString_key key _ hkey,
    skipSpace_cons (0x3A : Byte) _ (by decide), hnum]
  simp [skipSpace_cons (0x2C : Byte) _ (by decide)]

theorem plain_user_id : ∀ x ∈ ascii "user_id", x ≠ 0x22 ∧ x ≠ 0x5C ∧ 0x20 ≤ x.val := by decide!

theorem plain_event_type : ∀ x ∈ ascii "event_type", x ≠ 0x22 ∧ x ≠ 0x5C ∧ 0x20 ≤ x.val := by
  decide!

theorem plain_timestamp : ∀ x ∈ ascii "timestamp", x ≠ 0x22 ∧ x ≠ 0x5C ∧ 0x20 ≤ x.val := by
  decide!

theorem plain_url : ∀ x ∈ ascii "url", x ≠ 0x22 ∧ x ≠ 0x5C ∧ 0x20 ≤ x.val := by decide!

/-- The bytes `marshalEvent` writes, member by member. -/
theorem marshalEvent_eq (e : Event) :
    marshalEvent e = 0x7B ::
      0x22 :: (ascii "user_id" ++ 0x22 :: 0x3A :: 0x22 ::
        (appendStringLoop e.UserID.length e.UserID ++ 0x22 :: 0x2C ::
      0x22 :: (ascii "event_type" ++ 0x22 :: 0x3A :: 0x22 ::
        (appendStringLoop e.EventType.length e.EventType ++ 0x22 :: 0x2C ::
      0x22 :: (ascii "timestamp" ++ 0x22 :: 0x3A :: (formatInt e.Timestamp ++ 0x2C ::
      0x22 :: (ascii "url" ++ 0x22 :: 0x3A :: 0x22 ::
        (appendStringLoop e.URL.length e.URL ++ 0x22 :: 0x7D :: [])))))))) := by
  have k1 : ascii "\"user_id\":" = 0x22 :: (ascii "user_id" ++ [0x22, 0x3A]) := by decide
  have k2 : ascii "\"event_type\":" = 0x22 :: (ascii "event_type" ++ [0x22, 0x3A]) := by decide
  have k3 : ascii "\"timestamp\":" = 0x22 :: (ascii "timestamp" ++ [0x22, 0x3A]) := by decide
  have k4 : ascii "\"url\":" = 0x22 :: (ascii "url" ++ [0x22, 0x3A]) := by decide
  unfold marshalEvent appendString
  rw [k1, k2, k3, k4]
  simp only [List.append_assoc, List.cons_append, List.nil_append, List.singleton_append]

/-- The parser on the bytes `json.Marshal` returns for an `Event` with valid
UTF-8 strings: an object with the four members. -/
theorem parseJSON_marshalEvent (e : Event) (h1 : validUTF8 e.UserID = true)
    (h2 : validUTF8 e.EventType = true) (h3 : validUTF8 e.URL = true) :
    parseJSON (marshalEvent e) = some (.object
      [(ascii "user_id", .string (appendStringLoop e.UserID.length e.UserID)),
       (ascii "event_type", .string (appendStringLoop e.EventType.length e.EventType)),
       (ascii "timestamp", .number (formatInt e.Timestamp)),
       (ascii "url", .string (appendStringLoop e.URL.length e.URL))]) := by
  have hlen : ∃ f, (marshalEvent e).length + 1 = f + 6 := by
    refine ⟨(marshalEvent e).length - 5, ?_⟩
    have : 5 ≤ (marshalEvent e).length := by
      rw [marshalEvent_eq]
      simp only [List.length_cons, List.length_append]
      omega
    omega
  obtain ⟨f, hf⟩ := hlen
  unfold parseJSON
  rw [hf, marshalEvent_eq]
  have hp : parseValue (f + 6) 0 (0x7B ::
      0x22 :: (ascii "user_id" ++ 0x22 :: 0x3A :: 0x22 ::
        (appendStringLoop e.UserID.length e.UserID ++ 0x22 :: 0x2C ::
      0x22 :: (ascii "event_type" ++ 0x22 :: 0x3A :: 0x22 ::
        (appendStringLoop e.EventType.length e.EventType ++ 0x22 :: 0x2C ::
      0x22 :: (ascii "timestamp" ++ 0x22 :: 0x3A :: (formatInt e.Timestamp ++ 0x2C ::
      0x22 :: (ascii "url" ++ 0x22 :: 0x3A :: 0x22 ::
        (appendStringLoop e.URL.length e.URL ++ 0x22 :: 0x7D :: []))))))))) = some (.object
      [(ascii "user_id", .string (appendStringLoop e.UserID.length e.UserID)),
       (ascii "event_type", .string (appendStringLoop e.EventType.length e.EventType)),
       (ascii "timestamp", .number (formatInt e.Timestamp)),
       (ascii "url", .string (appendStringLoop e.URL.length e.URL))], []) := by
    rw [parseValue, skipSpace_cons _ _ (by decide)]
    simp only [if_true]
    rw [if_neg (by decide), skipSpace_cons _ _ (by decide)]
    simp only []
    rw [if_neg (by decide)]
    rw [parseMembers_string_comma (f + 3) 1 _ _ _ plain_user_id
        (fun t => scanString_appendStringLoop _ _ t h1),
      parseMembers_string_comma (f + 2) 1 _ _ _ plain_event_type
        (fun t => scanString_appendStringLoop _ _ t h2),
      parseMembers_number_comma (f + 1) 1 _ _ _ plain_timestamp,
      parseMembers_string_close f 1 _ _ _ plain_url
        (fun t => scanString_appendStringLoop _ _ t h3)]
    rfl
  rw [hp]
  rfl
theorem unquoteBytes_user_id : unquoteBytes (ascii "user_id") = some (ascii "user_id") := by
  decide!

theorem unquoteBytes_event_type :
    unquoteBytes (ascii "event_type") = some (ascii "event_type") := by
  decide!

theorem unquoteBytes_timestamp : unquoteBytes (ascii "timestamp") = some (ascii "timestamp") := by
  decide!

theorem unquoteBytes_url : unquoteBytes (ascii "url") = some (ascii "url") := by
  decide!

theorem lookupField_user_id : lookupField (ascii "user_id") = some .userID := by decide!

theorem lookupField_event_type : lookupField (ascii "event_type") = some .eventType := by decide!

theorem lookupField_timestamp : lookupField (ascii "timestamp") = some .timestamp := by decide!

theorem lookupField_url : lookupField (ascii "url") = some .url := by decide!

/-- Storing the four members `json.Marshal` writes for an `Event` into a zero
`Event` gives the `Event` back. -/
theorem decodeEvent_members (e : Event) (h1 : validUTF8 e.UserID = true)
    (h2 : validUTF8 e.EventType = true) (h3 : validUTF8 e.URL = true)
    (h4 : isInt64 e.Timestamp) :
    decodeEvent (.object
      [(ascii "user_id", .string (appendStringLoop e.UserID.length e.UserID)),
       (ascii "event_type", .string (appendStringLoop e.EventType.length e.EventType)),
       (ascii "timestamp", .number (formatInt e.Timestamp)),
       (ascii "url", .string (appendStringLoop e.URL.length e.URL))]) = some e := by
  have s1 : ∀ e0 : Event, storeMember e0
      (ascii "user_id", .string (appendStringLoop e.UserID.length e.UserID))
      = some { e0 with UserID := e.UserID } := by
    intro e0
    simp only [storeMember, unquoteBytes_user_id, lookupField_user_id, storeField,
      unquoteBytes_appendStringLoop e.UserID h1]
  have s2 : ∀ e0 : Event, storeMember e0
      (ascii "event_type", .string (appendStringLoop e.EventType.length e.EventType))
      = some { e0 with EventType := e.EventType } := by
    intro e0
    simp only [storeMember, unquoteBytes_event_type, lookupField_event_type, storeField,
      unquoteBytes_appendStringLoop e.EventType h2]
  have s3 : ∀ e0 : Event, storeMember e0 (ascii "timestamp", .number (formatInt e.Timestamp))
      = some { e0 with Timestamp := e.Timestamp } := by
    intro e0
    simp only [storeMember, unquoteBytes_timestamp, lookupField_timestamp, storeField,
      parseInt64_formatInt e.Timestamp h4, Option.map_some']
  have s4 : ∀ e0 : Event, storeMember e0
      (ascii "url", .string (appendStringLoop e.URL.length e.URL))
      = some { e0 with URL := e.URL } := by
    intro e0
    simp only [storeMember, unquoteBytes_url, lookupField_url, storeField,
      unquoteBytes_appendStringLoop e.URL h3]
  unfold decodeEvent
  simp only [List.foldlM, s1, s2, s3, s4, Option.bind_eq_bind, Option.some_bind, Option.pure_def]

/-- The bytes `json.Marshal` returns for an `Event` with valid UTF-8 strings
and an `int64` timestamp decode to the same `Event`. -/
theorem jsonUnmarshal_marshalEvent (e : Event) (h1 : validUTF8 e.UserID = true)
    (h2 : validUTF8 e.EventType = true) (h3 : validUTF8 e.URL = true)
    (h4 : isInt64 e.Timestamp) :
    jsonUnmarshal (marshalEvent e) = some e := by
  unfold jsonUnmarshal
  rw [parseJSON_marshalEvent e h1 h2 h3]
  exact decodeEvent_members e h1 h2 h3 h4

/-! ## Theorems: topic bootstrap -/

theorem creates_cons_createTopics (t : List Action) :
    creates (Action.createTopics :: t) = creates t + 1 := by
  simp [creates]

theorem creates_cons_sleep (ms : Nat) (t : List Action) :
    creates (Action.sleep ms :: t) = creates t := by
  simp [creates]

theorem creates_append (s t : List Action) : creates (s ++ t) = creates s + creates t := by
  simp [creates]

theorem dials_cons_dial (t : List Action) : dials (Action.dial :: t) = dials t + 1 := by
  simp [dials]

theorem dials_cons_sleep (ms : Nat) (t : List Action) :
    dials (Action.sleep ms :: t) = dials t := by
  simp [dials]

theorem waits_append (s t : List Action) : waits (s ++ t) = waits s ++ waits t := by
  induction s with
  | nil => rfl
  | cons a s ih => cases a <;> simp [waits, ih]

/-- The creation loop started at index `i` with `left` iterations to go: `k`
transient answers followed by a success or an "already exists". -/
theorem createLoop_retry (b : Broker) :
    ∀ (k left i : Nat) (e : Option KafkaErr), k < left →
      (∀ j, j < k → b.createTopics (i + j) = some .invalidReplicationFactor) →
      (b.createTopics (i + k) = none ∨ b.createTopics (i + k) = some .topicAlreadyExists) →
      (createLoop b left i e).1 = none ∧ creates (createLoop b left i e).2 = k + 1 ∧
        waits (createLoop b left i e).2 = List.replicate k retryInterval := by
  intro k
  induction k with
  | zero =>
    intro left i e hk _ hlast
    obtain ⟨left, rfl⟩ : ∃ l, left = l + 1 := ⟨left - 1, by omega⟩
    rcases hlast with h | h <;> simp at h <;> simp [createLoop, h, creates, waits]
  | succ k ih =>
    intro left i e hk hirf hlast
    obtain ⟨left, rfl⟩ : ∃ l, left = l + 1 := ⟨left - 1, by omega⟩
    have h0 : b.createTopics i = some .invalidReplicationFactor := by
      simpa using hirf 0 (by omega)
    have hrec := ih left (i + 1) (some .invalidReplicationFactor) (by omega)
      (fun j hj => by have := hirf (j + 1) (by omega); rwa [show i + (j + 1) = i + 1 + j by omega] at this)
      (by rwa [show i + (k + 1) = i + 1 + k by omega] at hlast)
    obtain ⟨h1, h2, h3⟩ := hrec
    simp only [createLoop, h0]
    refine ⟨h1, ?_, ?_⟩
    · simp [creates_cons_createTopics, creates_cons_sleep, h2]
    · simp [waits, h3, List.replicate_succ]

/-- The creation loop makes at most `left` calls, and a nil result comes from
the last call, answered by a success or an "already exists". -/
theorem createLoop_bounds (b : Broker) :
    ∀ (left i : Nat) (e : Option KafkaErr),
      creates (createLoop b left i e).2 ≤ left ∧
      ((createLoop b left i e).1 ≠ none ∨
        ∃ j, creates (createLoop b left i e).2 = j + 1 ∧
          (b.createTopics (i + j) = none ∨ b.createTopics (i + j) = some .topicAlreadyExists)) := by
  intro left
  induction left with
  | zero => intro i e; simp [createLoop, creates]
  | succ left ih =>
    intro i e
    simp only [createLoop]
    cases h : b.createTopics i with
    | none => exact ⟨by simp [creates], Or.inr ⟨0, by simp [creates], Or.inl h⟩⟩
    | some err =>
      cases err with
      | topicAlreadyExists =>
        exact ⟨by simp [creates], Or.inr ⟨0, by simp [creates], Or.inr h⟩⟩
      | invalidReplicationFactor =>
        obtain ⟨h1, h2⟩ := ih (i + 1) (some .invalidReplicationFactor)
        refine ⟨?_, ?_⟩
        · simp only [List.cons_append, List.nil_append, creates_cons_createTopics,
            creates_cons_sleep]
          omega
        · rcases h2 with h2 | ⟨j, hj1, hj2⟩
          · exact Or.inl h2
          · refine Or.inr ⟨j + 1, ?_, ?_⟩
            · simp only [List.cons_append, List.nil_append, creates_cons_createTopics,
                creates_cons_sleep]
              omega
            · rwa [show i + (j + 1) = i + 1 + j by omega]
      | other c => exact ⟨by simp [creates], Or.inl (by simp)⟩

/-- The creation loop when every answer is "invalid replication factor". -/
theorem createLoop_exhaust (b : Broker)
    (hirf : ∀ i, b.createTopics i = some .invalidReplicationFactor) :
    ∀ (left i : Nat) (e : Option KafkaErr), 0 < left →
      (createLoop b left i e).1 =
          some (.createExhausted retriesNumber (some .invalidReplicationFactor)) ∧
        creates (createLoop b left i e).2 = left ∧
        waits (createLoop b left i e).2 = List.replicate left retryInterval := by
  intro left
  induction left with
  | zero => intro i e h; omega
  | succ left ih =>
    intro i e _
    simp only [createLoop, hirf i]
    rcases Nat.eq_zero_or_pos left with h0 | hpos
    · subst h0
      simp [createLoop, creates, waits]
    · obtain ⟨h1, h2, h3⟩ := ih (i + 1) (some .invalidReplicationFactor) hpos
      refine ⟨h1, ?_, ?_⟩
      · simp [creates_cons_createTopics, creates_cons_sleep, h2]
      · simp [waits, h3, List.replicate_succ]

/-- The connection loop makes at most `left` calls. -/
theorem dialLoop_dials_le (b : Broker) :
    ∀ (left i : Nat) (e : Option Nat), dials (dialLoop b left i e).2.2 ≤ left := by
  intro left
  induction left with
  | zero => intro i e; simp [dialLoop, dials]
  | succ left ih =>
    intro i e
    simp only [dialLoop]
    cases h : b.dial i with
    | connected => simp [dials]
    | failed err =>
      have := ih (i + 1) (some err)
      simp only [List.cons_append, List.nil_append, dials_cons_dial, dials_cons_sleep]
      omega

/-- The connection loop when every one of its calls fails. -/
theorem dialLoop_all_fail (b : Broker) :
    ∀ (left i : Nat) (e : Option Nat),
      (∀ j, j < left → b.dial (i + j) ≠ .connected) →
      (dialLoop b left i e).1 = false ∧ dials (dialLoop b left i e).2.2 = left := by
  intro left
  induction left with
  | zero => intro i e _; simp [dialLoop, dials]
  | succ left ih =>
    intro i e hfail
    simp only [dialLoop]
    cases h : b.dial i with
    | connected => exact absurd h (by simpa using hfail 0 (by omega))
    | failed err =>
      obtain ⟨h1, h2⟩ := ih (i + 1) (some err)
        (fun j hj => by have := hfail (j + 1) (by omega); rwa [show i + (j + 1) = i + 1 + j by omega] at this)
      refine ⟨h1, ?_⟩
      simp [dials_cons_dial, dials_cons_sleep, h2]

/-- The connection loop when its first success is the call of index `i + k`. -/
theorem dialLoop_first_success (b : Broker) :
    ∀ (k left i : Nat) (e : Option Nat), k < left →
      (∀ j, j < k → b.dial (i + j) ≠ .connected) → b.dial (i + k) = .connected →
      (dialLoop b left i e).1 = true ∧ dials (dialLoop b left i e).2.2 = k + 1 ∧
        waits (dialLoop b left i e).2.2 = List.replicate k retryInterval := by
  intro k
  induction k with
  | zero =>
    intro left i e hk _ hok
    obtain ⟨left, rfl⟩ : ∃ l, left = l + 1 := ⟨left - 1, by omega⟩
    simp at hok
    simp [dialLoop, hok, dials, waits]
  | succ k ih =>
    intro left i e hk hfail hok
    obtain ⟨left, rfl⟩ : ∃ l, left = l + 1 := ⟨left - 1, by omega⟩
    simp only [dialLoop]
    cases h : b.dial i with
    | connected => exact absurd h (by simpa using hfail 0 (by omega))
    | failed err =>
      obtain ⟨h1, h2, h3⟩ := ih left (i + 1) (some err) (by omega)
        (fun j hj => by have := hfail (j + 1) (by omega); rwa [show i + (j + 1) = i + 1 + j by omega] at this)
        (by rwa [show i + (k + 1) = i + 1 + k by omega] at hok)
      refine ⟨h1, ?_, ?_⟩
      · simp [dials_cons_dial, dials_cons_sleep, h2]
      · simp [waits, h3, List.replicate_succ]

/-- The connection loop ends with a connection exactly when one of its calls
succeeds. -/
theorem dialLoop_connected_iff (b : Broker) :
    ∀ (left i : Nat) (e : Option Nat),
      (dialLoop b left i e).1 = true ↔ ∃ j, j < left ∧ b.dial (i + j) = .connected := by
  intro left i e
  constructor
  · intro h
    by_contra hne
    have hall : ∀ j, j < left → b.dial (i + j) ≠ .connected := fun j hj hc => hne ⟨j, hj, hc⟩
    rw [(dialLoop_all_fail b left i e hall).1] at h
    exact Bool.noConfusion h
  · intro h
    classical
    have hk := Nat.find_spec h
    have hmin : ∀ j, j < Nat.find h → b.dial (i + j) ≠ .connected := fun j hj hc =>
      Nat.find_min h hj ⟨by omega, hc⟩
    exact (dialLoop_first_success b (Nat.find h) left i e hk.1 hmin hk.2).1

/-- Unfolding of `createTopicIfNotExists` when the connection loop ends with a
connection. -/
theorem createTopicIfNotExists_connected (b : Broker)
    (hd : (dialLoop b retriesNumber 0 none).1 = true) :
    createTopicIfNotExists b =
      { err := (createLoop b retriesNumber 0 none).1,
        connTrace := (dialLoop b retriesNumber 0 none).2.2,
        createTrace := (createLoop b retriesNumber 0 none).2 ++ [.close] } := by
  simp [createTopicIfNotExists, hd]

/-- Unfolding of `createTopicIfNotExists` when the connection loop ends
without a connection. -/
theorem createTopicIfNotExists_unconnected (b : Broker)
    (hd : (dialLoop b retriesNumber 0 none).1 = false) :
    createTopicIfNotExists b =
      { err := some (.connectFailed retriesNumber (dialLoop b retriesNumber 0 none).2.1),
        connTrace := (dialLoop b retriesNumber 0 none).2.2,
        createTrace := [] } := by
  simp [createTopicIfNotExists, hd]

theorem creates_close : creates [Action.close] = 0 := by
  simp [creates]

theorem waits_close : waits [Action.close] = [] := rfl

theorem dialLoop_of_connects (b : Broker) (hconn : ∃ j, j < 5 ∧ b.dial j = .connected) :
    (dialLoop b retriesNumber 0 none).1 = true :=
  (dialLoop_connected_iff b retriesNumber 0 none).2
    (by obtain ⟨j, hj, hc⟩ := hconn; exact ⟨j, hj, by simpa using hc⟩)

/-- C2: once connected, `k < 5` "invalid replication factor" answers followed
by a success or an "already exists" make `createTopicIfNotExists` return nil
after exactly `k + 1` creation attempts and exactly `k` waits of 3 s. -/
theorem createTopic_retry_then_done (b : Broker) (k : Nat) (hk : k < 5)
    (hconn : ∃ j, j < 5 ∧ b.dial j = .connected)
    (hirf : ∀ i, i < k → b.createTopics i = some .invalidReplicationFactor)
    (hlast : b.createTopics k = none ∨ b.createTopics k = some .topicAlreadyExists) :
    (createTopicIfNotExists b).err = none ∧
      creates (createTopicIfNotExists b).createTrace = k + 1 ∧
      waits (createTopicIfNotExists b).createTrace = List.replicate k 3000 := by
  have hd := dialLoop_of_connects b hconn
  obtain ⟨h1, h2, h3⟩ := createLoop_retry b k retriesNumber 0 none hk
    (fun j hj => by simpa using hirf j hj) (by simpa using hlast)
  rw [createTopicIfNotExists_connected b hd]
  refine ⟨h1, ?_, ?_⟩
  · show creates ((createLoop b retriesNumber 0 none).2 ++ [.close]) = k + 1
    rw [creates_append, h2, creates_close]
  · show waits ((createLoop b retriesNumber 0 none).2 ++ [.close]) = List.replicate k 3000
    rw [waits_append, h3, waits_close, List.append_nil]
    rfl

/-- C2, instances: "already exists" on the first attempt gives success with
one attempt and no wait; two "invalid replication factor" answers followed by
a success give success after three attempts and two waits. -/
theorem createTopic_retry_then_done_witness :
    ((createTopicIfNotExists (scriptedBroker [some .topicAlreadyExists])).err = none ∧
      creates (createTopicIfNotExists (scriptedBroker [some .topicAlreadyExists])).createTrace = 1 ∧
      waits (createTopicIfNotExists (scriptedBroker [some .topicAlreadyExists])).createTrace = []) ∧
    ((createTopicIfNotExists (scriptedBroker
        [some .invalidReplicationFactor, some .invalidReplicationFactor, none])).err = none ∧
      creates (createTopicIfNotExists (scriptedBroker
        [some .invalidReplicationFactor, some .invalidReplicationFactor, none])).createTrace = 3 ∧
      waits (createTopicIfNotExists (scriptedBroker
        [some .invalidReplicationFactor, some .invalidReplicationFactor, none])).createTrace
        = [3000, 3000]) :=
  ⟨createTopic_retry_then_done (scriptedBroker [some .topicAlreadyExists]) 0 (by decide)
      ⟨0, by decide, rfl⟩ (fun i hi => absurd hi (Nat.not_lt_zero i)) (Or.inr rfl),
   createTopic_retry_then_done
      (scriptedBroker [some .invalidReplicationFactor, some .invalidReplicationFactor, none]) 2
      (by decide) ⟨0, by decide, rfl⟩
      (fun i hi => by
        rcases i with _ | _ | i
        · rfl
        · rfl
        · omega)
      (Or.inl rfl)⟩

/-- C3: once connected, a first `CreateTopics` answer that is neither
"already exists" nor "invalid replication factor" makes
`createTopicIfNotExists` return a non-nil error after exactly one creation
attempt and no wait: the creation phase is that one call and the deferred
close, whatever the later answers of the broker. -/
theorem createTopic_nonRetryable (b : Broker) (c : Nat)
    (hconn : ∃ j, j < 5 ∧ b.dial j = .connected)
    (hfirst : b.createTopics 0 = some (.other c)) :
    (createTopicIfNotExists b).err = some (.nonRetryable (.other c)) ∧
      (createTopicIfNotExists b).createTrace = [.createTopics, .close] ∧
      creates (createTopicIfNotExists b).createTrace = 1 ∧
      waits (createTopicIfNotExists b).createTrace = [] := by
  have hd := dialLoop_of_connects b hconn
  rw [createTopicIfNotExists_connected b hd]
  have hc : createLoop b retriesNumber 0 none
      = (some (.nonRetryable (.other c)), [.createTopics]) := by
    simp [retriesNumber, createLoop, hfirst]
  rw [hc]
  exact ⟨rfl, rfl, by simp [creates], rfl⟩

/-- C3, instance: a broker that always answers with the same non-retryable
error. -/
theorem createTopic_nonRetryable_witness :
    (createTopicIfNotExists (flakyBroker 0 (some (.other 7)))).err
        = some (.nonRetryable (.other 7)) ∧
      (createTopicIfNotExists (flakyBroker 0 (some (.other 7)))).createTrace
        = [.createTopics, .close] ∧
      creates (createTopicIfNotExists (flakyBroker 0 (some (.other 7)))).createTrace = 1 ∧
      waits (createTopicIfNotExists (flakyBroker 0 (some (.other 7)))).createTrace = [] :=
  createTopic_nonRetryable (flakyBroker 0 (some (.other 7))) 7 ⟨0, by decide, rfl⟩ rfl

/-- C4: once connected, a broker that answers every `CreateTopics` call with
"invalid replication factor" makes `createTopicIfNotExists` return a non-nil
error after exactly 5 creation attempts; and for every broker there are at
most 5 creation attempts, and a nil result comes with a last attempt, among
the first 5, that was answered by a success or an "already exists". -/
theorem createTopic_attempts_bounded (b : Broker) :
    ((∃ j, j < 5 ∧ b.dial j = .connected) →
      (∀ i, b.createTopics i = some .invalidReplicationFactor) →
      (createTopicIfNotExists b).err
          = some (.createExhausted 5 (some .invalidReplicationFactor)) ∧
        creates (createTopicIfNotExists b).createTrace = 5) ∧
    creates (createTopicIfNotExists b).createTrace ≤ 5 ∧
    ((createTopicIfNotExists b).err ≠ none ∨
      ∃ i, i < 5 ∧ creates (createTopicIfNotExists b).createTrace = i + 1 ∧
        (b.createTopics i = none ∨ b.createTopics i = some .topicAlreadyExists)) := by
  refine ⟨?_, ?_, ?_⟩
  · intro hconn hirf
    have hd := dialLoop_of_connects b hconn
    obtain ⟨h1, h2, _⟩ := createLoop_exhaust b hirf retriesNumber 0 none (by decide)
    rw [createTopicIfNotExists_connected b hd]
    refine ⟨by rw [h1]; rfl, ?_⟩
    show creates ((createLoop b retriesNumber 0 none).2 ++ [.close]) = 5
    rw [creates_append, h2, creates_close]
    rfl
  · cases hd : (dialLoop b retriesNumber 0 none).1 with
    | true =>
      rw [createTopicIfNotExists_connected b hd]
      have := (createLoop_bounds b retriesNumber 0 none).1
      show creates ((createLoop b retriesNumber 0 none).2 ++ [.close]) ≤ 5
      rw [creates_append, creates_close]
      simpa [retriesNumber] using this
    | false =>
      rw [createTopicIfNotExists_unconnected b hd]
      simp [creates]
  · cases hd : (dialLoop b retriesNumber 0 none).1 with
    | true =>
      rw [createTopicIfNotExists_connected b hd]
      have hle := (createLoop_bounds b retriesNumber 0 none).1
      rcases (createLoop_bounds b retriesNumber 0 none).2 with h | ⟨j, hj, h⟩
      · exact Or.inl h
      · refine Or.inr ⟨j, ?_, ?_, by simpa using h⟩
        · rw [hj] at hle
          simp only [retriesNumber] at hle
          omega
        · show creates ((createLoop b retriesNumber 0 none).2 ++ [.close]) = j + 1
          rw [creates_append, creates_close, hj]
    | false =>
      rw [createTopicIfNotExists_unconnected b hd]
      exact Or.inl (by simp)

/-- C4, instance: a broker that always answers "invalid replication factor". -/
theorem createTopic_attempts_bounded_witness :
    (createTopicIfNotExists (flakyBroker 0 (some .invalidReplicationFactor))).err
        = some (.createExhausted 5 (some .invalidReplicationFactor)) ∧
      creates (createTopicIfNotExists (flakyBroker 0 (some .invalidReplicationFactor))).createTrace
        = 5 :=
  (createTopic_attempts_bounded (flakyBroker 0 (some .invalidReplicationFactor))).1
    ⟨0, by decide, rfl⟩ (fun _ => rfl)

/-- C5: the connection phase makes at most 5 `Dial` calls; when each of the
first 5 calls fails the function returns a non-nil error and `CreateTopics`
is never called; and when the first success is the `j`-th call
(`1 ≤ j ≤ 5`) there are exactly `j` calls and `j - 1` waits of 3 s before the
creation phase, which then runs. -/
theorem createTopic_connection_phase (b : Broker) :
    dials (createTopicIfNotExists b).connTrace ≤ 5 ∧
    ((∀ i, i < 5 → b.dial i ≠ .connected) →
      (createTopicIfNotExists b).err ≠ none ∧ (createTopicIfNotExists b).createTrace = [] ∧
        creates (createTopicIfNotExists b).createTrace = 0) ∧
    (∀ j, 1 ≤ j → j ≤ 5 → (∀ i, i < j - 1 → b.dial i ≠ .connected) →
      b.dial (j - 1) = .connected →
      dials (createTopicIfNotExists b).connTrace = j ∧
        waits (createTopicIfNotExists b).connTrace = List.replicate (j - 1) 3000 ∧
        1 ≤ creates (createTopicIfNotExists b).createTrace) := by
  refine ⟨?_, ?_, ?_⟩
  · have := dialLoop_dials_le b retriesNumber 0 none
    cases hd : (dialLoop b retriesNumber 0 none).1 with
    | true => rw [createTopicIfNotExists_connected b hd]; simpa [retriesNumber] using this
    | false => rw [createTopicIfNotExists_unconnected b hd]; simpa [retriesNumber] using this
  · intro hfail
    have := (dialLoop_all_fail b retriesNumber 0 none
      (fun j hj => by simpa using hfail j (by simpa [retriesNumber] using hj))).1
    rw [createTopicIfNotExists_unconnected b this]
    simp [creates]
  · intro j h1 h5 hfail hok
    obtain ⟨h1, h2, h3⟩ := dialLoop_first_success b (j - 1) retriesNumber 0 none
      (by simp only [retriesNumber]; omega) (fun i hi => by simpa using hfail i hi)
      (by simpa using hok)
    rw [createTopicIfNotExists_connected b h1]
    refine ⟨by show dials (dialLoop b retriesNumber 0 none).2.2 = j; rw [h2]; omega,
      by simpa [retryInterval] using h3, ?_⟩
    have hpos : 1 ≤ creates (createLoop b retriesNumber 0 none).2 := by
      simp only [retriesNumber, createLoop]
      cases b.createTopics 0 with
      | none => simp [creates]
      | some err => cases err <;> simp [creates]
    show 1 ≤ creates ((createLoop b retriesNumber 0 none).2 ++ [.close])
    rw [creates_append]
    omega

/-- C5, instance: two failed connections and then a success give three `Dial`
calls and two waits, and five failed connections give a non-nil error without
any `CreateTopics` call. -/
theorem createTopic_connection_phase_witness :
    (dials (createTopicIfNotExists (flakyBroker 2 none)).connTrace = 3 ∧
      waits (createTopicIfNotExists (flakyBroker 2 none)).connTrace = [3000, 3000] ∧
      1 ≤ creates (createTopicIfNotExists (flakyBroker 2 none)).createTrace) ∧
    ((createTopicIfNotExists (flakyBroker 5 none)).err ≠ none ∧
      (createTopicIfNotExists (flakyBroker 5 none)).createTrace = [] ∧
      creates (createTopicIfNotExists (flakyBroker 5 none)).createTrace = 0) :=
  ⟨(createTopic_connection_phase (flakyBroker 2 none)).2.2 3 (by decide) (by decide)
      (fun i hi => by
        have : i < 2 := hi
        simp [flakyBroker, this])
      rfl,
   (createTopic_connection_phase (flakyBroker 5 none)).2.1
      (fun i hi => by simp [flakyBroker, hi])⟩

/-! ## Theorems: event generator, producer loop, consumer loop -/

theorem intN_pos (raw n : Nat) (h : 0 < n) : intN raw n = some (raw % n) := by
  simp [intN, Nat.pos_iff_ne_zero.mp h]

/-- The user identifiers `generateEvent` can build. -/
theorem userID_values (k : Nat) (hk : k < 10) :
    ascii "user_" ++ formatInt ((k : Int) + 1) ≠ [] ∧
    ascii "user_" ++ formatInt ((k : Int) + 1) ∈
      [ascii "user_1", ascii "user_2", ascii "user_3", ascii "user_4", ascii "user_5",
       ascii "user_6", ascii "user_7", ascii "user_8", ascii "user_9", ascii "user_10"] := by
  interval_cases k <;> decide

/-- Indexing `eventTypes` below its length. -/
theorem eventTypes_get (i : Nat) (hi : i < 5) :
    ∃ t, eventTypes.get? i = some t ∧ t ∈ eventTypes := by
  interval_cases i <;> exact ⟨_, rfl, by decide⟩

/-- Indexing `urls` below its length. -/
theorem urls_get (j : Nat) (hj : j < 6) : ∃ u, urls.get? j = some u ∧ u ∈ urls := by
  interval_cases j <;> exact ⟨_, rfl, by decide⟩

/-- The function `generateEvent` does not panic: its result, field by field. -/
theorem generateEvent_eq (r1 r2 r3 : Nat) (now : Int) :
    ∃ t u, t ∈ eventTypes ∧ u ∈ urls ∧
      generateEvent r1 r2 r3 now
        = some ⟨ascii "user_" ++ formatInt (((r1 % 10 : Nat) : Int) + 1), t, now, u⟩ := by
  obtain ⟨t, ht1, ht2⟩ := eventTypes_get (r2 % 5) (Nat.mod_lt _ (by decide))
  obtain ⟨u, hu1, hu2⟩ := urls_get (r3 % 6) (Nat.mod_lt _ (by decide))
  refine ⟨t, u, ht2, hu2, ?_⟩
  have e5 : eventTypes.length = 5 := rfl
  have e6 : urls.length = 6 := rfl
  simp only [generateEvent, e5, e6, intN_pos r1 10 (by decide), intN_pos r2 5 (by decide),
    intN_pos r3 6 (by decide), ht1, hu1]

/-- C10: whatever the randomness source and the clock yield, `generateEvent`
does not panic, and it returns an `Event` whose `UserID` is non-empty and one
of `user_1` to `user_10`, whose `EventType` and `URL` are among the listed
values, and whose `Timestamp` is the clock reading. -/
theorem generateEvent_in_population (r1 r2 r3 : Nat) (now : Int) :
    ∃ e, generateEvent r1 r2 r3 now = some e ∧
      e.UserID ≠ [] ∧
      e.UserID ∈ [ascii "user_1", ascii "user_2", ascii "user_3", ascii "user_4",
        ascii "user_5", ascii "user_6", ascii "user_7", ascii "user_8", ascii "user_9",
        ascii "user_10"] ∧
      e.EventType ∈ [ascii "view", ascii "click", ascii "purchase", ascii "add_to_cart",
        ascii "login"] ∧
      e.URL ∈ [ascii "/home", ascii "/product/a", ascii "/product/b", ascii "/checkout",
        ascii "/blog", ascii "/about"] ∧
      e.Timestamp = now := by
  obtain ⟨t, u, ht, hu, he⟩ := generateEvent_eq r1 r2 r3 now
  have hid := userID_values (r1 % 10) (Nat.mod_lt _ (by decide))
  exact ⟨_, he, hid.1, hid.2, ht, hu, rfl⟩

theorem producerStep_ok (st : ProducerState) (inp : ProducerInput) :
    ∃ e, generateEvent inp.r1 inp.r2 inp.r3 inp.now = some e ∧
      producerStep st inp = some
        { produced := st.produced + (if inp.publishOk then 1 else 0)
          published := st.published ++ [marshalEvent e]
          sleeps := st.sleeps ++ [inp.rSleep % 4 * 500 + 1000] } := by
  obtain ⟨t, u, -, -, he⟩ := generateEvent_eq inp.r1 inp.r2 inp.r3 inp.now
  refine ⟨_, he, ?_⟩
  simp only [producerStep, he, jsonMarshal, intN_pos inp.rSleep 4 (by decide)]
  cases inp.publishOk <;> simp

/-- The payloads the producer loop publishes for a list of inputs: the
serialization of each generated event. -/
theorem producerLoop_ok (inps : List ProducerInput) : ∀ st : ProducerState,
    ∃ st', producerLoop st inps = some st' ∧
      st'.produced = st.produced + (inps.filter (·.publishOk)).length ∧
      st'.published = st.published ++ inps.filterMap
        (fun i => (generateEvent i.r1 i.r2 i.r3 i.now).map marshalEvent) ∧
      st'.sleeps.length = st.sleeps.length + inps.length := by
  induction inps with
  | nil => intro st; exact ⟨st, rfl, by simp, by simp, by simp⟩
  | cons inp inps ih =>
    intro st
    obtain ⟨e, he, hstep⟩ := producerStep_ok st inp
    obtain ⟨st', h1, h2, h3, h4⟩ := ih
      { produced := st.produced + (if inp.publishOk then 1 else 0)
        published := st.published ++ [marshalEvent e]
        sleeps := st.sleeps ++ [inp.rSleep % 4 * 500 + 1000] }
    refine ⟨st', ?_, ?_, ?_, ?_⟩
    · simp only [producerLoop, List.foldlM_cons, hstep] at h1 ⊢
      exact h1
    · rw [h2]
      cases hp : inp.publishOk <;> (simp [List.filter_cons, hp]; try omega)
    · rw [h3]
      simp [List.filterMap_cons, he]
    · rw [h4]
      simp
      omega

/-- C7: for every list of `N` producer-loop iterations, whatever the publish
outcomes, the loop runs all `N` iterations without stopping; the counter
`eventsProduced` grows by `N` minus the number of failed publishes; and
`WriteMessages` is called exactly once per iteration, on the serialization of
the event generated in that iteration (no second attempt after a failure). -/
theorem producerLoop_counts (st : ProducerState) (inps : List ProducerInput) :
    ∃ st', producerLoop st inps = some st' ∧
      st'.produced = st.produced + (inps.length - (inps.filter (fun i => !i.publishOk)).length) ∧
      st'.published = st.published ++ inps.filterMap
        (fun i => (generateEvent i.r1 i.r2 i.r3 i.now).map marshalEvent) ∧
      st'.published.length = st.published.length + inps.length ∧
      st'.sleeps.length = st.sleeps.length + inps.length := by
  obtain ⟨st', h1, h2, h3, h4⟩ := producerLoop_ok inps st
  refine ⟨st', h1, ?_, h3, ?_, h4⟩
  · rw [h2]
    have hsplit : ∀ l : List ProducerInput,
        (l.filter (·.publishOk)).length + (l.filter (fun i => !i.publishOk)).length
          = l.length := by
      intro l
      induction l with
      | nil => rfl
      | cons a l ih => cases ha : a.publishOk <;> simp [List.filter_cons, ha] <;> omega
    have := hsplit inps
    omega
  · rw [h3, List.length_append]
    congr 1
    have hlen : ∀ l : List ProducerInput, (l.filterMap
        (fun i => (generateEvent i.r1 i.r2 i.r3 i.now).map marshalEvent)).length = l.length := by
      intro l
      induction l with
      | nil => rfl
      | cons a l ih =>
        obtain ⟨t, u, -, -, he⟩ := generateEvent_eq a.r1 a.r2 a.r3 a.now
        simp [List.filterMap_cons, he, ih]
    exact hlen inps

theorem consumerLoop_counts_aux (inps : List ConsumerInput) : ∀ st : ConsumerState,
    (consumerLoop st inps).inserted.length
        = st.inserted.length + (inps.filter deserializes).length ∧
      (consumerLoop st inps).consumed
        = st.consumed + (inps.filter (fun i => deserializes i && i.insertOk)).length := by
  induction inps with
  | nil => intro st; simp [consumerLoop]
  | cons inp inps ih =>
    intro st
    have hstep : (consumerStep st inp).inserted.length
          = st.inserted.length + (if deserializes inp then 1 else 0) ∧
        (consumerStep st inp).consumed
          = st.consumed + (if (deserializes inp && inp.insertOk) then 1 else 0) := by
      unfold consumerStep deserializes
      cases inp.read with
      | error => simp
      | message value =>
        cases hj : jsonUnmarshal value with
        | none => simp [hj]
        | some event => cases hi : inp.insertOk <;> simp [hj, hi]
    obtain ⟨h1, h2⟩ := ih (consumerStep st inp)
    have hc : consumerLoop st (inp :: inps) = consumerLoop (consumerStep st inp) inps := rfl
    rw [hc, h1, h2, hstep.1, hstep.2]
    constructor
    · cases hd : deserializes inp <;> (simp [List.filter_cons, hd]; try omega)
    · cases hd : deserializes inp <;> cases hi : inp.insertOk <;>
        (simp [List.filter_cons, hd, hi]; try omega)

/-- C6: over any finite run of the consumer loop, the number of documents
passed to `InsertOne` grows by the number of messages whose payload
deserializes, and `eventsConsumed` grows by the number of those whose insert
succeeds; a payload that does not deserialize changes nothing and the loop
goes on. A malformed payload followed by a well-formed one whose insert
succeeds gives exactly one document and one increment. -/
theorem consumerLoop_counts (st : ConsumerState) :
    (∀ inps : List ConsumerInput,
      (consumerLoop st inps).inserted.length
          = st.inserted.length + (inps.filter deserializes).length ∧
        (consumerLoop st inps).consumed
          = st.consumed + (inps.filter (fun i => deserializes i && i.insertOk)).length) ∧
    (∀ (bad : List Byte) (c1 c2 : Int) (ok : Bool), jsonUnmarshal bad = none →
      consumerStep st { read := .message bad, clock1 := c1, clock2 := c2, insertOk := ok } = st) ∧
    (∀ (bad good : List Byte) (e : Event) (a1 a2 c1 c2 : Int) (ok : Bool),
      jsonUnmarshal bad = none → jsonUnmarshal good = some e →
      consumerLoop st
          [{ read := .message bad, clock1 := a1, clock2 := a2, insertOk := ok },
           { read := .message good, clock1 := c1, clock2 := c2, insertOk := true }]
        = { st with inserted := st.inserted ++ [enrich e c1 c2], consumed := st.consumed + 1 }) := by
  refine ⟨fun inps => consumerLoop_counts_aux inps st, ?_, ?_⟩
  · intro bad c1 c2 ok hbad
    simp [consumerStep, hbad]
  · intro bad good e a1 a2 c1 c2 ok hbad hgood
    simp [consumerLoop, consumerStep, hbad, hgood]

/-- C9, at the failing input: for the scenario event consumed while the clock
reads 1150 ms at the first reading of the loop body and 1151 ms at the second,
the written document copies the four fields and has `processing_time = 1150`,
but its `latency_ms` is 151: it is not the document of the scenario. -/
theorem enrich_scenario_mismatch :
    enrich scenarioEvent 1150 1151
      = { scenarioDocument with latency_ms := 151 } ∧
    (enrich scenarioEvent 1150 1151).processing_time = scenarioDocument.processing_time ∧
    (enrich scenarioEvent 1150 1151).latency_ms ≠ scenarioDocument.latency_ms ∧
    enrich scenarioEvent 1150 1151 ≠ scenarioDocument := by
  decide

/-- C1, at the failing input: for the scenario event (timestamp 1000) and the
clock readings 1150 and then 1151, the written document has
`processing_time = 1150` and `latency_ms = 151`, which is not
`processing_time - timestamp`. -/
theorem enrich_latency_mismatch :
    (enrich scenarioEvent 1150 1151).processing_time = 1150 ∧
    (enrich scenarioEvent 1150 1151).timestamp = 1000 ∧
    (enrich scenarioEvent 1150 1151).latency_ms = 151 ∧
    (enrich scenarioEvent 1150 1151).latency_ms ≠
      wrap64 ((enrich scenarioEvent 1150 1151).processing_time
        - (enrich scenarioEvent 1150 1151).timestamp) ∧
    (enrich scenarioEvent 1150 1151).latency_ms ≠
      (enrich scenarioEvent 1150 1151).processing_time
        - (enrich scenarioEvent 1150 1151).timestamp := by
  decide

/-- C6, instance: the payload `not json` changes nothing, and followed by the
serialization of the scenario event, with a successful insert, it gives one
document and one increment from the initial state. -/
theorem consumerLoop_counts_witness :
    jsonUnmarshal (ascii "not json") = none ∧
    jsonUnmarshal (marshalEvent scenarioEvent) = some scenarioEvent ∧
    consumerStep ⟨0, [], []⟩ ⟨.message (ascii "not json"), 1100, 1100, true⟩ = ⟨0, [], []⟩ ∧
    consumerLoop ⟨0, [], []⟩
        [⟨.message (ascii "not json"), 1100, 1100, true⟩,
         ⟨.message (marshalEvent scenarioEvent), 1150, 1150, true⟩]
      = ⟨1, [enrich scenarioEvent 1150 1150], []⟩ :=
  ⟨by decide, by decide,
   (consumerLoop_counts ⟨0, [], []⟩).2.1 (ascii "not json") 1100 1100 true (by decide),
   (consumerLoop_counts ⟨0, [], []⟩).2.2 (ascii "not json") (marshalEvent scenarioEvent)
      scenarioEvent 1100 1100 1150 1150 true (by decide) (by decide)⟩

/-! ## Theorems: round trip of the events of the pipeline -/

/-- The user identifiers `generateEvent` can build are valid UTF-8. -/
theorem userID_valid (k : Nat) (hk : k < 10) :
    validUTF8 (ascii "user_" ++ formatInt ((k : Int) + 1)) = true := by
  interval_cases k <;> decide

theorem eventTypes_valid : ∀ t ∈ eventTypes, validUTF8 t = true := by decide

theorem urls_valid : ∀ u ∈ urls, validUTF8 u = true := by decide

/-- C8: for every valid `Event` (three strings that are text, an `int64`
timestamp), `json.Marshal` succeeds and `json.Unmarshal` of the bytes it
returns succeeds and yields an `Event` equal to the original in every field;
and every `Event` the producer serializes, which is what `generateEvent`
returns at an `int64` clock reading, is such an event and comes back equal. -/
theorem marshal_unmarshal_roundtrip :
    (∀ e : Event, validEvent e →
      ∃ data, jsonMarshal e = some data ∧ jsonUnmarshal data = some e) ∧
    (∀ (r1 r2 r3 : Nat) (now : Int), isInt64 now →
      ∃ e data, generateEvent r1 r2 r3 now = some e ∧ validEvent e ∧
        jsonMarshal e = some data ∧ jsonUnmarshal data = some e) := by
  have hall : ∀ e : Event, validEvent e →
      ∃ data, jsonMarshal e = some data ∧ jsonUnmarshal data = some e := by
    intro e hv
    exact ⟨marshalEvent e, rfl, jsonUnmarshal_marshalEvent e hv.1 hv.2.1 hv.2.2.1 hv.2.2.2⟩
  refine ⟨hall, ?_⟩
  intro r1 r2 r3 now hnow
  obtain ⟨t, u, ht, hu, he⟩ := generateEvent_eq r1 r2 r3 now
  have hv : validEvent ⟨ascii "user_" ++ formatInt (((r1 % 10 : Nat) : Int) + 1), t, now, u⟩ :=
    ⟨userID_valid (r1 % 10) (Nat.mod_lt _ (by decide)), eventTypes_valid t ht,
      urls_valid u hu, hnow⟩
  obtain ⟨data, hm, hu'⟩ := hall _ hv
  exact ⟨_, data, he, hv, hm, hu'⟩

/-- C8, instances: an event with non-ASCII runes and escaped bytes, and the
event generated from the draws 12, 3, 4 at the clock reading 1700000000123. -/
theorem marshal_unmarshal_roundtrip_witness :
    (validEvent unicodeEvent ∧
      ∃ data, jsonMarshal unicodeEvent = some data ∧ jsonUnmarshal data = some unicodeEvent) ∧
    (isInt64 1700000000123 ∧
      ∃ e data, generateEvent 12 3 4 1700000000123 = some e ∧ validEvent e ∧
        jsonMarshal e = some data ∧ jsonUnmarshal data = some e) :=
  ⟨⟨by decide, marshal_unmarshal_roundtrip.1 unicodeEvent (by decide)⟩,
   ⟨by decide, marshal_unmarshal_roundtrip.2 12 3 4 1700000000123 (by decide)⟩⟩

end Pipeline
